import Mathlib

/-!
Verification of the keystatic client-side git object store and tree-diff
engine, shallowly embedded from the TypeScript source
(`object-store.tsx` and the batch-commits module).

JavaScript `Map`s are modelled as association lists (`List (key × value)`)
iterated in insertion order; `Map` keys are unique in JavaScript, which
theorems record as `Nodup` hypotheses on the key lists where needed.
JavaScript `Set`s of strings are modelled as duplicate-free `List String`
in insertion order.  `Uint8Array` blob contents are modelled as `List Nat`.
-/

namespace Keystatic

/-! ## Data model and operations, embedded from the source -/

/-- Entry type, derived in the source from the git mode string. -/
inductive EntryType where
  | blob
  | symlink
  | tree
deriving DecidableEq, Repr

/-- `TreeEntry` from `trees.ts`: `{ mode, path, sha, type }`. -/
structure TreeEntry where
  mode : String
  path : String
  sha : String
  type : EntryType
deriving Repr

/-- `TreeNode` from `trees.ts`: `{ entry: TreeEntry, children?: Map<string, TreeNode> }`. -/
inductive TreeNode where
  | mk (entry : TreeEntry) (children : Option (List (String × TreeNode)))

/-- Field accessor for the `entry` component of a `TreeNode`. -/
def TreeNode.entry : TreeNode → TreeEntry
  | .mk e _ => e

/-- Field accessor for the `children` component of a `TreeNode`. -/
def TreeNode.children : TreeNode → Option (List (String × TreeNode))
  | .mk _ c => c

/-- `StoredTreeEntry` from `object-store.tsx`: `{ path, sha, mode }`. -/
structure StoredTreeEntry where
  path : String
  sha : String
  mode : String
deriving DecidableEq, Repr

/-- A raw value of the persistent tree store.  The source validates every
value read from the store against `treeSchema` (a `zod` array of
`{path, mode, sha}` objects); a value either matches the schema (`valid`,
carrying the parsed entries) or does not (`invalid`). -/
inductive StoredValue where
  | valid (entries : List StoredTreeEntry)
  | invalid
deriving DecidableEq, Repr

/-- A JSON value, as produced by a successful `JSON.parse`. -/
inductive Json where
  | null
  | bool (b : Bool)
  | num (n : Int)
  | str (s : String)
  | arr (elements : List Json)
  | obj (fields : List (String × Json))

/-- Modelled from the spec: a JavaScript `Date` constructed from an
ISO-8601 string by `new Date(x)` (a platform builtin not in the source
tree); the model keeps the originating string. -/
structure JsDate where
  raw : String
deriving DecidableEq, Repr

/-- An extra-roots record value: `{ sha, updatedAt }` after schema parsing
(`updatedAt` transformed from string to `Date`). -/
structure ExtraRoot where
  sha : String
  updatedAt : JsDate
deriving DecidableEq, Repr

/-- The mutable browser-side state touched by the object store:
the persistent "trees" and "blobs" stores, the persisted extra-roots
value for the active scope (`localStorage` key `ks-roots-…`), and the
process-wide in-memory stored-tree cache `_storedTreeCache`.

The extra-roots slot holds `none` when the key is absent, `some none`
when the stored string is not valid JSON (so `JSON.parse` throws), and
`some (some j)` when it parses to the JSON value `j`.  The scope-key
derivation from the configuration is elided: the state carries the slot
for the active scope directly. -/
structure ObjState where
  treeStore : List (String × StoredValue)
  blobStore : List (String × List Nat)
  extraRootsRaw : Option (Option Json)
  cache : Option (List (String × List StoredTreeEntry))

/-- `zod` parse of one extra-roots record value against
`z.object({ sha: z.string(), updatedAt: z.string().transform(x => new Date(x)) })`
(unknown keys are stripped; both fields must be strings). -/
def parseExtraRootValue : Json → Option ExtraRoot
  | Json.obj fields =>
    match List.lookup "sha" fields, List.lookup "updatedAt" fields with
    | some (Json.str s), some (Json.str u) => some ⟨s, ⟨u⟩⟩
    | _, _ => none
  | _ => none

/-- `zod` parse of a persisted extra-roots value against
`extraRootsSchema = z.record(…)`: the value must be a plain object and
every field value must parse; field order is preserved. -/
def parseExtraRoots : Json → Option (List (String × ExtraRoot))
  | Json.obj fields =>
    fields.foldr
      (fun kv acc =>
        match acc, parseExtraRootValue kv.2 with
        | some l, some v => some ((kv.1, v) :: l)
        | _, _ => none)
      (some [])
  | _ => none

/-- `getExtraRoots`: reads the persisted extra-roots value for the scope;
an absent key, unparseable JSON, or a schema-validation failure all yield
an empty mapping (the source catches the throw and returns `new Map()`). -/
def getExtraRoots (raw : Option (Option Json)) : List (String × ExtraRoot) :=
  match raw with
  | none => []
  | some none => []
  | some (some j) =>
    match parseExtraRoots j with
    | some m => m
    | none => []

/-- The scan done by `getStoredTrees` when the in-memory cache is cold:
every store entry is validated against `treeSchema` via `safeParse`, and
only successfully parsed entries reach the cache. -/
def scanTreeStore (store : List (String × StoredValue)) :
    List (String × List StoredTreeEntry) :=
  store.filterMap (fun e =>
    match e.2 with
    | StoredValue.valid entries => some (e.1, entries)
    | StoredValue.invalid => none)

/-- `getStoredTrees`: returns the in-memory cache if populated, otherwise
scans the persistent tree store, caches the valid entries and returns them. -/
def getStoredTrees (s : ObjState) :
    List (String × List StoredTreeEntry) × ObjState :=
  match s.cache with
  | some c => (c, s)
  | none =>
    let c := scanTreeStore s.treeStore
    (c, { s with cache := some c })

/-- `new Set(list)`: deduplicate keeping first occurrences, in order. -/
def setFromList (l : List String) : List String :=
  l.foldl (fun acc x => if acc.contains x then acc else acc ++ [x]) []

/-! The two lemmas below are needed to justify termination of the
    collector's mark loop (`gcMark`), so they precede it. -/

theorem lookup_mem {β : Type} {k : String} {v : β} :
    ∀ {l : List (String × β)}, List.lookup k l = some v → (k, v) ∈ l := by
  intro l
  induction l with
  | nil => intro h; simp at h
  | cons hd tl ih =>
    intro h
    obtain ⟨k', v'⟩ := hd
    rw [List.lookup_cons] at h
    cases hbeq : k == k' with
    | true =>
      rw [hbeq] at h
      simp only [Option.some.injEq] at h
      have hk : k = k' := by simpa using hbeq
      subst hk
      subst h
      exact List.mem_cons_self _ _
    | false =>
      rw [hbeq] at h
      exact List.mem_cons_of_mem _ (ih h)

theorem length_eraseP_lookup_lt {β : Type} (l : List (String × β)) (k : String)
    (v : β) (h : List.lookup k l = some v) :
    (List.eraseP (fun t => t.1 == k) l).length < l.length := by
  have hmem : (k, v) ∈ l := lookup_mem h
  have hlen : (List.eraseP (fun t : String × β => t.1 == k) l).length = l.length - 1 := by
    apply List.length_eraseP_of_mem hmem
    simp
  have hpos : 0 < l.length := List.length_pos.mpr (List.ne_nil_of_mem hmem)
  omega

/-- The garbage collector's mark loop: `for (const sha of queue) …` over a
JavaScript `Set` seeded with the roots.  `pending` is the not-yet-visited
suffix of the set, `seen` its full contents (an element is appended only
if not already present), `blobs` the candidate blob deletions and `trees`
the candidate tree deletions.  Returns the final candidate sets. -/
def gcMark : List String → List String → List String →
    List (String × List StoredTreeEntry) →
    List String × List (String × List StoredTreeEntry)
  | [], _, blobs, trees => (blobs, trees)
  | sha :: rest, seen, blobs, trees =>
    if blobs.contains sha then
      gcMark rest seen (blobs.erase sha) trees
    else
      match _h : List.lookup sha trees with
      | some tr =>
        let next := tr.foldl
          (fun acc e =>
            if acc.2.contains e.sha then acc
            else (acc.1 ++ [e.sha], acc.2 ++ [e.sha]))
          (rest, seen)
        gcMark next.1 next.2 blobs (trees.eraseP (fun t => t.1 == sha))
      | none => gcMark rest seen blobs trees
termination_by pending _ _ trees => (trees.length, pending.length)
decreasing_by
  · apply Prod.Lex.right
    simp only [List.length_cons]
    omega
  · apply Prod.Lex.left
    exact length_eraseP_lookup_lt trees sha tr _h
  · apply Prod.Lex.right
    simp only [List.length_cons]
    omega

/-- `garbageCollectGitObjects`: unions the caller-supplied roots with the
extra roots, scans the stored trees (the source re-runs
`treeSchema.safeParse` over the cache entries returned by
`getStoredTrees`; those values already have the parsed type, because both
`getStoredTrees` and `setTreeToPersistedCache` only insert schema-valid
values, so that re-validation always succeeds and `invalidTrees` stays
empty), marks reachable objects, and deletes every unvisited blob and
tree key from the stores and the in-memory cache. -/
def garbageCollectGitObjects (s : ObjState) (roots0 : List String) : ObjState :=
  let roots := roots0 ++ (getExtraRoots s.extraRootsRaw).map (fun e => e.2.sha)
  let scanned := getStoredTrees s
  let s1 := scanned.2
  let treesToDelete := scanned.1
  let invalidTrees : List String := []
  let allBlobs := s1.blobStore.map Prod.fst
  let queue := setFromList roots
  let marked := gcMark queue queue allBlobs treesToDelete
  let blobsToDelete := marked.1
  let treeKeysToDelete := marked.2.map Prod.fst ++ invalidTrees
  { s1 with
    blobStore := s1.blobStore.filter (fun b => !(blobsToDelete.contains b.1)),
    treeStore := s1.treeStore.filter (fun t => !(treeKeysToDelete.contains t.1)),
    cache := s1.cache.map (fun c => c.filter (fun t => !(treeKeysToDelete.contains t.1))) }

/-- `clearObjectStore`: removes the scope's extra-roots key and clears both
persistent stores; the in-memory stored-tree cache is not touched. -/
def clearObjectStore (s : ObjState) : ObjState :=
  { s with extraRootsRaw := none, blobStore := [], treeStore := [] }

/-- `(parentPath === '' ? '' : parentPath + '/') + segment`, the inner-path
construction used by `constructTreeFromStoredTrees`. -/
def joinPath (parentPath segment : String) : String :=
  (if parentPath = "" then "" else parentPath ++ "/") ++ segment

/-- JavaScript `Map.prototype.set` on an association list: replace the value
of an existing key in place, otherwise append the new binding. -/
def mapSet (m : List (String × TreeNode)) (k : String) (v : TreeNode) :
    List (String × TreeNode) :=
  match m with
  | [] => [(k, v)]
  | (k', v') :: rest => if k' = k then (k, v) :: rest else (k', v') :: mapSet rest k v

mutual

/-- `constructTreeFromStoredTrees`: recursively resolves a root sha against
the `sha → StoredTreeEntry[]` mapping, rebuilding a `TreeNode`; returns
`none` when the sha (or, via `constructChildren`, any transitively
referenced tree sha) is missing.  The source recursion has no structural
bound (a cyclic mapping would not terminate), so the embedding takes a
`fuel` bound on recursion depth; `fuel` exhaustion also yields `none`. -/
def constructTreeFromStoredTrees (fuel : Nat) (sha : String)
    (trees : List (String × List StoredTreeEntry)) (parentPath : String) :
    Option TreeNode :=
  match fuel with
  | 0 => none
  | fuel' + 1 =>
    match List.lookup sha trees with
    | none => none
    | some storedTree =>
      match constructChildren fuel' storedTree trees parentPath [] with
      | none => none
      | some tree =>
        some (TreeNode.mk ⟨"040000", parentPath, sha, EntryType.tree⟩ (some tree))

/-- The entry loop of `constructTreeFromStoredTrees`: builds the children
map entry by entry, returning `none` as soon as a tree-mode entry fails to
resolve (the source's early `return`). -/
def constructChildren (fuel : Nat) (entries : List StoredTreeEntry)
    (trees : List (String × List StoredTreeEntry)) (parentPath : String)
    (acc : List (String × TreeNode)) : Option (List (String × TreeNode)) :=
  match entries with
  | [] => some acc
  | entry :: rest =>
    let innerPath := joinPath parentPath entry.path
    if entry.mode = "040000" then
      match constructTreeFromStoredTrees fuel entry.sha trees innerPath with
      | some child => constructChildren fuel rest trees parentPath (mapSet acc entry.path child)
      | none => none
    else
      constructChildren fuel rest trees parentPath
        (mapSet acc entry.path
          (TreeNode.mk
            ⟨entry.mode, innerPath, entry.sha,
              if entry.mode = "120000" then EntryType.symlink else EntryType.blob⟩
            none))

end

/-- `path.replace(/.*\\//, '')`: the greedy `.*` consumes up to the last
`/`, so the replacement keeps only the final path segment; a path without
`/` is unchanged. -/
def stripToLastSlash (s : String) : String :=
  ⟨(s.data.reverse.takeWhile (fun c => c != '/')).reverse⟩

mutual

/-- `collectTrees`: serializes a children map and every descendant tree
into the flat `allTrees` accumulator (`[sha, StoredTreeEntry[]]` pairs);
descendants are appended during the walk and the node's own pair is
appended last. -/
def collectTrees (sha : String) (children : List (String × TreeNode))
    (allTrees : List (String × List StoredTreeEntry)) :
    List (String × List StoredTreeEntry) :=
  let r := collectLoop children allTrees
  r.2 ++ [(sha, r.1)]

/-- The `for (const [path, entry] of children)` loop of `collectTrees`:
builds this node's entry list while recursing into children that have a
children map, threading the `allTrees` accumulator. -/
def collectLoop : List (String × TreeNode) →
    List (String × List StoredTreeEntry) →
    List StoredTreeEntry × List (String × List StoredTreeEntry)
  | [], allTrees => ([], allTrees)
  | (path, TreeNode.mk entry kids) :: rest, allTrees =>
    let entryRec : StoredTreeEntry := ⟨stripToLastSlash path, entry.sha, entry.mode⟩
    let allTrees' :=
      match kids with
      | some c => collectTrees entry.sha c allTrees
      | none => allTrees
    let r := collectLoop rest allTrees'
    (entryRec :: r.1, r.2)

end

/-- The serialized immediate entries of a children map, as `collectTrees`
builds them. -/
def serializeEntries (children : List (String × TreeNode)) : List StoredTreeEntry :=
  children.map (fun kv => ⟨stripToLastSlash kv.1, kv.2.entry.sha, kv.2.entry.mode⟩)

/-- The `(sha, entries)` pairs contributed by all proper descendants of a
children map during `collectTrees`, in traversal order. -/
def childTrees : List (String × TreeNode) → List (String × List StoredTreeEntry)
  | [] => []
  | (_, TreeNode.mk entry kids) :: rest =>
    (match kids with
     | some c => childTrees c ++ [(entry.sha, serializeEntries c)]
     | none => []) ++ childTrees rest

/-- Nesting depth of a children map: `0` for no subtrees, one more than
the deepest child subtree otherwise. -/
def treeListDepth : List (String × TreeNode) → Nat
  | [] => 0
  | (_, TreeNode.mk _ kids) :: rest =>
    max (match kids with
         | some c => treeListDepth c + 1
         | none => 0)
      (treeListDepth rest)

/-- A flat sha → entries list is consistent when equal keys always carry
equal entry lists (true of content-addressed storage: the sha determines
the serialized tree). -/
def consistentList : List (String × List StoredTreeEntry) → Bool
  | [] => true
  | (k, v) :: rest =>
    rest.all (fun e => e.1 != k || decide (e.2 = v)) && consistentList rest

/-- Well-formedness of an in-memory children map relative to the full path
of its parent, as the source maintains it: keys are unique single
segments, each node's `entry.path` is the parent path joined with its key,
tree nodes (and only tree nodes) have mode `040000` and a children map,
and symlink typing matches mode `120000`. -/
def childrenWf (parentPath : String) : List (String × TreeNode) → Bool
  | [] => true
  | (k, TreeNode.mk e kids) :: rest =>
    !k.data.contains '/' &&
    !((rest.map Prod.fst).contains k) &&
    (e.path == joinPath parentPath k) &&
    (match kids with
     | some c =>
       (e.type == EntryType.tree) && (e.mode == "040000") &&
         childrenWf (joinPath parentPath k) c
     | none =>
       (e.type != EntryType.tree) && (e.mode != "040000") &&
         ((e.type == EntryType.symlink) == (e.mode == "120000"))) &&
    childrenWf parentPath rest

/-- The stored-tree mapping `trees` contains the serialized form of a
whole subtree: the pair for the node itself and, recursively, for every
descendant tree node. -/
inductive TreeStored (trees : List (String × List StoredTreeEntry)) :
    String → List (String × TreeNode) → Prop where
  | mk (sha : String) (children : List (String × TreeNode)) :
      (sha, serializeEntries children) ∈ trees →
      (∀ k e c, (k, TreeNode.mk e (some c)) ∈ children → TreeStored trees e.sha c) →
      TreeStored trees sha children

/-- `getTreeFromPersistedCache`: reads the stored trees (through the
in-memory cache) and reconstructs the tree for `sha`.  The sync/async
distinction of the source (cache hit vs. store scan) is a single state
pass here; `fuel` bounds the reconstruction depth as in
`constructTreeFromStoredTrees`. -/
def getTreeFromPersistedCache (s : ObjState) (fuel : Nat) (sha : String) :
    Option TreeNode × ObjState :=
  let stored := getStoredTrees s
  (constructTreeFromStoredTrees fuel sha stored.1 "", stored.2)

/-- `getLeafPaths`: every leaf (non-tree) path beneath a children map, with
path segments joined by `/`; tree nodes without a children map are skipped. -/
def getLeafPaths : List (String × TreeNode) → List String
  | [] => []
  | (path, TreeNode.mk entry kids) :: rest =>
    (if entry.type = EntryType.tree then
      match kids with
      | some c => (getLeafPaths c).map (fun childPath => path ++ "/" ++ childPath)
      | none => []
    else [path]) ++ getLeafPaths rest

/-- The result of `diffTrees`: blob additions `{path, sha}` and deletion
paths, in push order. -/
structure DiffResult where
  additions : List (String × String)
  deletions : List String
deriving DecidableEq, Repr

/-- The body of `diffTrees`' final `for (const deletion of deletions)` loop:
a deleted path that was a tree with children contributes one deletion per
leaf beneath it, any other deleted path contributes itself. -/
def delContrib (oldTree : List (String × TreeNode)) (deletion : String) : List String :=
  match List.lookup deletion oldTree with
  | some (TreeNode.mk entry (some c)) =>
    if entry.type = EntryType.tree then
      (getLeafPaths c).map (fun path => deletion ++ "/" ++ path)
    else [deletion]
  | some (TreeNode.mk _ none) => [deletion]
  | none => [deletion]

mutual

/-- `diffTrees(oldTree, newTree)`: walks `newTree`'s entries, removing each
visited path from the pending-deletion set (seeded with `oldTree`'s keys,
which are unique since `oldTree` is a `Map`); a changed or new blob is an
addition, a changed or new tree recurses (missing old subtree treated as
empty) with results path-prefixed; finally each remaining old path becomes
either one deletion per leaf beneath it (old trees) or a single deletion. -/
def diffTrees (oldTree newTree : List (String × TreeNode)) : DiffResult :=
  let s := diffLoop oldTree newTree (oldTree.map Prod.fst) [] []
  let finalDeletions := s.2.2 ++ s.1.flatMap (delContrib oldTree)
  ⟨s.2.1, finalDeletions⟩

/-- The `for (const [path, node] of newTree)` loop of `diffTrees`, threading
the pending-deletion set, the additions and the accumulated recursive
deletions. -/
def diffLoop (oldTree : List (String × TreeNode)) :
    List (String × TreeNode) → List String → List (String × String) → List String →
    List String × List (String × String) × List String
  | [], dels, adds, allDels => (dels, adds, allDels)
  | (path, TreeNode.mk entry kids) :: rest, dels, adds, allDels =>
    let dels' := dels.erase path
    let oldNode := List.lookup path oldTree
    let changed : Bool :=
      match oldNode with
      | some o => o.entry.sha != entry.sha
      | none => true
    if changed then
      let adds' := if entry.type = EntryType.blob then adds ++ [(path, entry.sha)] else adds
      match kids with
      | some c =>
        if entry.type = EntryType.tree then
          let oldChildren :=
            match oldNode with
            | some o => o.children.getD []
            | none => []
          let result := diffTrees oldChildren c
          diffLoop oldTree rest dels'
            (adds' ++ result.additions.map (fun a => (path ++ "/" ++ a.1, a.2)))
            (allDels ++ result.deletions.map (fun d => path ++ "/" ++ d))
        else diffLoop oldTree rest dels' adds' allDels
      | none => diffLoop oldTree rest dels' adds' allDels
    else diffLoop oldTree rest dels' adds allDels

end

/-- A sha whose resolution against the stored-tree mapping must fail:
either the sha itself is absent, or some tree-mode (`040000`) entry of its
stored tree transitively fails to resolve. -/
inductive MissingRef (trees : List (String × List StoredTreeEntry)) : String → Prop where
  | root (sha : String) : List.lookup sha trees = none → MissingRef trees sha
  | child (sha : String) (entries : List StoredTreeEntry) (e : StoredTreeEntry) :
      List.lookup sha trees = some entries → e ∈ entries → e.mode = "040000" →
      MissingRef trees e.sha → MissingRef trees sha

/-- The C1 scenario state: tree store `{A → [{x, blob, B}], C → [{y, blob, D}]}`,
blob store `{B, D}`, empty extra-roots registry, cold in-memory cache. -/
def c1State : ObjState :=
  { treeStore := [("A", StoredValue.valid [⟨"x", "B", "100644"⟩]),
                  ("C", StoredValue.valid [⟨"y", "D", "100644"⟩])],
    blobStore := [("B", [1]), ("D", [2])],
    extraRootsRaw := none,
    cache := none }

/-- The C8 failing state: reachable valid tree `A`, unreachable valid tree
`C`, and a tree-store entry `X` whose value fails schema validation. -/
def c8State : ObjState :=
  { treeStore := [("A", StoredValue.valid [⟨"x", "B", "100644"⟩]),
                  ("C", StoredValue.valid [⟨"y", "D", "100644"⟩]),
                  ("X", StoredValue.invalid)],
    blobStore := [("B", [1]), ("D", [2])],
    extraRootsRaw := none,
    cache := none }

/-- A string with no `/` in it: a single path segment.  Keys of the
children maps in well-formed trees are single segments. -/
def noSlash (s : String) : Prop := '/' ∉ s.data

instance decNoSlash (s : String) : Decidable (noSlash s) :=
  inferInstanceAs (Decidable ('/' ∉ s.data))

/-- `s` is the path `d` itself or lies strictly beneath directory `d`. -/
def pathUnder (d s : String) : Prop := s = d ∨ (d ++ "/").data <+: s.data

/-- Boolean version of `pathUnder`, for filtering. -/
def pathUnderB (d s : String) : Bool := s == d || (d ++ "/").data.isPrefixOf s.data

/-- The old subtree against which a changed tree entry recurses:
`oldNode?.children ?? new Map()`. -/
def oldChildrenOf (oldTree : List (String × TreeNode)) (path : String) :
    List (String × TreeNode) :=
  match List.lookup path oldTree with
  | some o => o.children.getD []
  | none => []

/-- The `changed` test of the `diffTrees` walk:
`!oldNode || oldNode.entry.sha !== node.entry.sha`. -/
def shaChanged (oldTree : List (String × TreeNode)) (path : String)
    (entry : TreeEntry) : Bool :=
  match List.lookup path oldTree with
  | some o => o.entry.sha != entry.sha
  | none => true

/-- Per-entry additions contribution of the `diffTrees` walk over
`newTree` (the additions pushed while processing one entry). -/
def addContrib (oldTree : List (String × TreeNode)) :
    String × TreeNode → List (String × String)
  | (path, TreeNode.mk entry kids) =>
    if shaChanged oldTree path entry then
      (if entry.type = EntryType.blob then [(path, entry.sha)] else []) ++
      (match kids with
       | some c =>
         if entry.type = EntryType.tree then
           (diffTrees (oldChildrenOf oldTree path) c).additions.map
             (fun a => (path ++ "/" ++ a.1, a.2))
         else []
       | none => [])
    else []

/-- Per-entry recursive-deletions contribution of the `diffTrees` walk
over `newTree`. -/
def recDelContrib (oldTree : List (String × TreeNode)) :
    String × TreeNode → List String
  | (path, TreeNode.mk entry kids) =>
    if shaChanged oldTree path entry then
      match kids with
      | some c =>
        if entry.type = EntryType.tree then
          (diffTrees (oldChildrenOf oldTree path) c).deletions.map
            (fun d => path ++ "/" ++ d)
        else []
      | none => []
    else []

/-- Well-formedness of a children map as JavaScript guarantees it: keys
are unique (`Map`) and are single path segments (no `/`), recursively. -/
def wfTrees : List (String × TreeNode) → Bool
  | [] => true
  | (k, TreeNode.mk _ kids) :: rest =>
    !k.data.contains '/' &&
    !((rest.map Prod.fst).contains k) &&
    (match kids with
     | some c => wfTrees c
     | none => true) &&
    wfTrees rest

/-- The number of leaf (blob or symlink, i.e. non-tree) entries in a
children map, across all nesting levels. -/
def numLeaves : List (String × TreeNode) → Nat
  | [] => 0
  | (_, TreeNode.mk entry kids) :: rest =>
    (if entry.type = EntryType.tree then
      match kids with
      | some c => numLeaves c
      | none => 0
    else 1) + numLeaves rest

/-- C2 counterexample input: `a` is a blob in the old tree. -/
def c2Old : List (String × TreeNode) :=
  [("a", TreeNode.mk ⟨"100644", "a", "1", EntryType.blob⟩ none)]

/-- C2 counterexample input: `a` is a tree (with leaf `a/b`) in the new tree. -/
def c2New : List (String × TreeNode) :=
  [("a", TreeNode.mk ⟨"040000", "a", "2", EntryType.tree⟩
    (some [("b", TreeNode.mk ⟨"100644", "a/b", "3", EntryType.blob⟩ none)]))]

/-! ## Verification -/

@[simp] theorem TreeNode.entry_mk (e : TreeEntry)
    (c : Option (List (String × TreeNode))) : (TreeNode.mk e c).entry = e := rfl

@[simp] theorem TreeNode.children_mk (e : TreeEntry)
    (c : Option (List (String × TreeNode))) : (TreeNode.mk e c).children = c := rfl

/-- C1: for the garbage collector, given a tree store containing exactly
`{A → [{path x, blob mode, sha B}], C → [{path y, blob mode, sha D}]}`, a blob
store containing exactly `{B, D}`, an empty extra-roots registry and
caller-supplied roots `{A}`, after `garbageCollectGitObjects` completes the
tree store retains only key `A` and the blob store retains only key `B`;
keys `C` and `D` are deleted. -/
theorem c1_gc_concrete_scenario :
    (garbageCollectGitObjects c1State ["A"]).treeStore
      = [("A", StoredValue.valid [⟨"x", "B", "100644"⟩])] ∧
    (garbageCollectGitObjects c1State ["A"]).blobStore = [("B", [1])] := by
  constructor
  · simp [garbageCollectGitObjects, c1State, getStoredTrees, scanTreeStore, getExtraRoots,
      setFromList, gcMark, List.lookup_cons]
  · simp [garbageCollectGitObjects, c1State, getStoredTrees, scanTreeStore, getExtraRoots,
      setFromList, gcMark, List.lookup_cons]

/-- C8 (counter-evidence, code bug): running the collector with roots `{A}`
on `c8State` deletes the unreachable valid tree `C` but retains the
schema-invalid entry `X` in the persistent tree store, although the claim
(and the spec, twice) says entries failing validation at scan time are
deleted.  The collector's `invalidTrees` machinery is dead code because
`getStoredTrees` pre-filters invalid entries. -/
theorem c8_invalid_tree_entry_survives_gc :
    (garbageCollectGitObjects c8State ["A"]).treeStore
      = [("A", StoredValue.valid [⟨"x", "B", "100644"⟩]), ("X", StoredValue.invalid)] := by
  simp [garbageCollectGitObjects, c8State, getStoredTrees, scanTreeStore, getExtraRoots,
    setFromList, gcMark, List.lookup_cons]

/-- C9: for every persisted extra-roots value that fails schema validation
(including unparseable JSON, or JSON whose record values have
missing/mistyped `sha` or `updatedAt` fields), `getExtraRoots` returns an
empty mapping.  The embedding is a total function: the source's `try/catch`
is the `Option` handling here, so no error escapes. -/
theorem c9_malformed_extra_roots_empty (raw : Option (Option Json))
    (h : raw = some none ∨ ∃ j, raw = some (some j) ∧ parseExtraRoots j = none) :
    getExtraRoots raw = [] := by
  rcases h with h | ⟨j, hj, hp⟩
  · rw [h]
    rfl
  · rw [hj]
    simp [getExtraRoots, hp]

/-- Witness for C9 at two concrete inputs: a stored string that is not
valid JSON (`some none`), and parseable JSON that fails schema validation
(`{"main": {"sha": 5}}`: `sha` mistyped, `updatedAt` missing). -/
theorem c9_malformed_extra_roots_empty_witness :
    getExtraRoots (some none) = [] ∧
    getExtraRoots (some (some (Json.obj [("main", Json.obj [("sha", Json.num 5)])]))) = [] := by
  constructor
  · exact c9_malformed_extra_roots_empty (some none) (Or.inl rfl)
  · exact c9_malformed_extra_roots_empty _
      (Or.inr ⟨Json.obj [("main", Json.obj [("sha", Json.num 5)])], rfl, rfl⟩)

/-- C10: `clearObjectStore` clears both persistent stores and the scope's
extra-roots key, but leaves the in-memory stored-tree cache unchanged: with
a populated cache containing `sha`, a subsequent `getTreeFromPersistedCache`
returns exactly what it returned before the clear, even though the
persistent tree store no longer contains anything. -/
theorem c10_clear_object_store_keeps_memory_cache (s : ObjState)
    (m : List (String × List StoredTreeEntry)) (sha : String) (fuel : Nat)
    (hcache : s.cache = some m) (_hsha : (List.lookup sha m).isSome) :
    (clearObjectStore s).treeStore = [] ∧
    (clearObjectStore s).blobStore = [] ∧
    (clearObjectStore s).extraRootsRaw = none ∧
    (clearObjectStore s).cache = some m ∧
    (getTreeFromPersistedCache (clearObjectStore s) fuel sha).1
      = (getTreeFromPersistedCache s fuel sha).1 := by
  refine ⟨rfl, rfl, rfl, ?_, ?_⟩
  · simp [clearObjectStore, hcache]
  · simp [getTreeFromPersistedCache, getStoredTrees, clearObjectStore, hcache]

theorem seg_data (p x : String) :
    (p ++ "/" ++ x).data = p.data ++ '/' :: x.data := by
  simp [String.data_append]

theorem slash_mem_seg (p x : String) : '/' ∈ (p ++ "/" ++ x).data := by
  rw [seg_data]
  simp

theorem noSlash_ne_seg {p : String} (h : noSlash p) (q x : String) :
    p ≠ q ++ "/" ++ x := by
  intro heq
  exact h (heq ▸ slash_mem_seg q x)

theorem noslash_seg_inj_data :
    ∀ {l₁ l₂ : List Char} {r₁ r₂ : List Char}, '/' ∉ l₁ → '/' ∉ l₂ →
      l₁ ++ '/' :: r₁ = l₂ ++ '/' :: r₂ → l₁ = l₂ ∧ r₁ = r₂ := by
  intro l₁
  induction l₁ with
  | nil =>
    intro l₂ r₁ r₂ _ h₂ heq
    cases l₂ with
    | nil => simpa using heq
    | cons c t =>
      simp only [List.nil_append, List.cons_append, List.cons.injEq] at heq
      exact absurd (heq.1 ▸ List.mem_cons_self c t) h₂
  | cons c t ih =>
    intro l₂ r₁ r₂ h₁ h₂ heq
    cases l₂ with
    | nil =>
      simp only [List.nil_append, List.cons_append, List.cons.injEq] at heq
      exact absurd (heq.1.symm ▸ List.mem_cons_self c t) h₁
    | cons c' t' =>
      simp only [List.cons_append, List.cons.injEq] at heq
      have h₁' : '/' ∉ t := fun hm => h₁ (List.mem_cons_of_mem c hm)
      have h₂' : '/' ∉ t' := fun hm => h₂ (List.mem_cons_of_mem c' hm)
      obtain ⟨ht, hr⟩ := ih h₁' h₂' heq.2
      exact ⟨by rw [heq.1, ht], hr⟩

theorem seg_inj {q q' a a' : String} (hq : noSlash q) (hq' : noSlash q')
    (h : q ++ "/" ++ a = q' ++ "/" ++ a') : q = q' ∧ a = a' := by
  have hdata : q.data ++ '/' :: a.data = q'.data ++ '/' :: a'.data := by
    rw [← seg_data, ← seg_data, h]
  obtain ⟨h1, h2⟩ := noslash_seg_inj_data hq hq' hdata
  exact ⟨String.ext h1, String.ext h2⟩

theorem under_seg_eq {d q : String} (hd : noSlash d) (hq : noSlash q)
    (x : String) (h : pathUnder d (q ++ "/" ++ x)) : d = q := by
  rcases h with h | h
  · exact absurd h.symm (noSlash_ne_seg hd q x)
  · obtain ⟨t, ht⟩ := h
    rw [String.data_append, seg_data] at ht
    have ht' : d.data ++ '/' :: t = q.data ++ '/' :: x.data := by
      have : ("/" : String).data = ['/'] := rfl
      rw [this] at ht
      simpa using ht
    exact String.ext (noslash_seg_inj_data hd hq ht').1

theorem not_under_of_noslash_ne {d s : String} (_hd : noSlash d) (hs : noSlash s)
    (hne : s ≠ d) : ¬ pathUnder d s := by
  rintro (h | h)
  · exact hne h
  · have : '/' ∈ s.data := h.subset (by rw [String.data_append]; simp)
    exact hs this

theorem under_self_seg (d x : String) : pathUnder d (d ++ "/" ++ x) := by
  right
  rw [seg_data, String.data_append]
  have : ("/" : String).data = ['/'] := rfl
  rw [this]
  exact ⟨x.data, by simp⟩

theorem pathUnderB_iff {d s : String} : pathUnderB d s = true ↔ pathUnder d s := by
  unfold pathUnderB pathUnder
  rw [Bool.or_eq_true, beq_iff_eq, List.isPrefixOf_iff_prefix]

theorem lookup_of_nodup_mem {β : Type} {k : String} {v : β} :
    ∀ {l : List (String × β)}, (l.map Prod.fst).Nodup → (k, v) ∈ l →
      List.lookup k l = some v := by
  intro l
  induction l with
  | nil => intro _ h; simp at h
  | cons hd tl ih =>
    intro hnd hmem
    obtain ⟨k', v'⟩ := hd
    simp only [List.map_cons, List.nodup_cons] at hnd
    rcases List.mem_cons.mp hmem with h1 | h2
    · have hk : (k == k') = true := beq_iff_eq.mpr (congrArg Prod.fst h1)
      have hv : v' = v := (congrArg Prod.snd h1).symm
      rw [List.lookup_cons, hk, hv]
    · have hne : k ≠ k' := by
        intro hkk
        exact hnd.1 (hkk ▸ List.mem_map_of_mem Prod.fst h2)
      have hkf : (k == k') = false := beq_eq_false_iff_ne.mpr hne
      rw [List.lookup_cons, hkf]
      exact ih hnd.2 h2

theorem assoc_value_eq_of_nodup {β : Type} {k : String} {v v' : β}
    {l : List (String × β)} (hnd : (l.map Prod.fst).Nodup)
    (h1 : (k, v) ∈ l) (h2 : (k, v') ∈ l) : v = v' := by
  have e1 := lookup_of_nodup_mem hnd h1
  have e2 := lookup_of_nodup_mem hnd h2
  rw [e1] at e2
  exact Option.some.injEq .. ▸ e2

theorem foldl_erase_nil : ∀ ks : List String, List.foldl List.erase [] ks = [] := by
  intro ks
  induction ks with
  | nil => rfl
  | cons k ks ih => simpa using ih

theorem foldl_erase_eq_filter :
    ∀ (ks l : List String), l.Nodup →
      List.foldl List.erase l ks = l.filter (fun x => decide (x ∉ ks)) := by
  intro ks
  induction ks with
  | nil =>
    intro l _
    simp
  | cons k ks ih =>
    intro l hnd
    rw [List.foldl_cons, ih (l.erase k) (hnd.erase k), hnd.erase_eq_filter k,
      List.filter_filter]
    congr 1
    funext x
    simp only [List.mem_cons, decide_not]
    by_cases hxk : x = k <;> by_cases hxs : x ∈ ks <;> simp [hxk, hxs]

theorem sizeOf_lt_of_mem_assoc {k : String} {nd : TreeNode} :
    ∀ {l : List (String × TreeNode)}, (k, nd) ∈ l → sizeOf nd < sizeOf l := by
  intro l h
  induction l with
  | nil => simp at h
  | cons hd tl ih =>
    rcases List.mem_cons.mp h with h1 | h2
    · rw [← h1]
      simp only [List.cons.sizeOf_spec, Prod.mk.sizeOf_spec]
      omega
    · have := ih h2
      simp only [List.cons.sizeOf_spec]
      omega

theorem sizeOf_children_lt (e : TreeEntry) (c : List (String × TreeNode)) :
    sizeOf c < sizeOf (TreeNode.mk e (some c)) := by
  simp only [TreeNode.mk.sizeOf_spec, Option.some.sizeOf_spec]
  omega

theorem diffLoop_spec (oldTree : List (String × TreeNode)) :
    ∀ (rest : List (String × TreeNode)) (dels : List String)
      (adds : List (String × String)) (allDels : List String),
      diffLoop oldTree rest dels adds allDels =
        (List.foldl List.erase dels (rest.map Prod.fst),
         adds ++ rest.flatMap (addContrib oldTree),
         allDels ++ rest.flatMap (recDelContrib oldTree)) := by
  intro rest
  induction rest with
  | nil =>
    intro dels adds allDels
    simp [diffLoop]
  | cons hd tl ih =>
    intro dels adds allDels
    obtain ⟨path, node⟩ := hd
    obtain ⟨entry, kids⟩ := node
    rw [diffLoop]
    rcases hlk : List.lookup path oldTree with _ | o
    · cases kids with
      | none =>
        by_cases hb : entry.type = EntryType.blob <;>
          simp [hlk, ih, addContrib, recDelContrib, shaChanged, oldChildrenOf, hb]
      | some c =>
        by_cases ht : entry.type = EntryType.tree
        · have hb : ¬ entry.type = EntryType.blob := by
            rw [ht]
            intro hc
            cases hc
          simp [hlk, ih, addContrib, recDelContrib, shaChanged, oldChildrenOf, ht, hb]
        · by_cases hb : entry.type = EntryType.blob <;>
            simp [hlk, ih, addContrib, recDelContrib, shaChanged, oldChildrenOf, ht, hb]
    · by_cases hch : o.entry.sha != entry.sha
      · cases kids with
        | none =>
          by_cases hb : entry.type = EntryType.blob <;>
            simp [hlk, ih, addContrib, recDelContrib, shaChanged, oldChildrenOf, hch, hb]
        | some c =>
          by_cases ht : entry.type = EntryType.tree
          · have hb : ¬ entry.type = EntryType.blob := by
              rw [ht]
              intro hc
              cases hc
            simp [hlk, ih, addContrib, recDelContrib, shaChanged, oldChildrenOf, hch, ht, hb]
          · by_cases hb : entry.type = EntryType.blob <;>
              simp [hlk, ih, addContrib, recDelContrib, shaChanged, oldChildrenOf, hch, ht, hb]
      · have hch' : o.entry.sha = entry.sha := by simpa using hch
        simp [hlk, ih, addContrib, recDelContrib, shaChanged, oldChildrenOf, hch']

theorem diffTrees_spec (oldTree newTree : List (String × TreeNode)) :
    diffTrees oldTree newTree =
      ⟨newTree.flatMap (addContrib oldTree),
       newTree.flatMap (recDelContrib oldTree) ++
         (List.foldl List.erase (oldTree.map Prod.fst)
           (newTree.map Prod.fst)).flatMap (delContrib oldTree)⟩ := by
  rw [diffTrees, diffLoop_spec]
  simp

theorem diffTrees_refl_aux (t : List (String × TreeNode))
    (hnd : (t.map Prod.fst).Nodup) : diffTrees t t = ⟨[], []⟩ := by
  rw [diffTrees_spec]
  have hadd : t.flatMap (addContrib t) = [] := by
    rw [List.flatMap_eq_nil_iff]
    intro x hx
    obtain ⟨path, node⟩ := x
    obtain ⟨entry, kids⟩ := node
    have hlk := lookup_of_nodup_mem hnd hx
    simp [addContrib, shaChanged, hlk, TreeNode.entry]
  have hrec : t.flatMap (recDelContrib t) = [] := by
    rw [List.flatMap_eq_nil_iff]
    intro x hx
    obtain ⟨path, node⟩ := x
    obtain ⟨entry, kids⟩ := node
    have hlk := lookup_of_nodup_mem hnd hx
    simp [recDelContrib, shaChanged, hlk, TreeNode.entry]
  have herase : List.foldl List.erase (t.map Prod.fst) (t.map Prod.fst) = [] := by
    rw [foldl_erase_eq_filter _ _ hnd, List.filter_eq_nil_iff]
    intro a ha
    simp [ha]
  rw [hadd, hrec, herase]
  rfl

theorem wfTrees_cons_iff {k : String} {e : TreeEntry}
    {kids : Option (List (String × TreeNode))} {rest : List (String × TreeNode)} :
    wfTrees ((k, TreeNode.mk e kids) :: rest) = true ↔
      noSlash k ∧ k ∉ rest.map Prod.fst ∧
        (∀ c, kids = some c → wfTrees c = true) ∧ wfTrees rest = true := by
  rw [wfTrees.eq_def]
  simp only []
  simp only [Bool.and_eq_true, Bool.not_eq_true']
  constructor
  · rintro ⟨⟨⟨h1, h2⟩, h3⟩, h4⟩
    refine ⟨?_, ?_, ?_, h4⟩
    · intro hm
      have : k.data.contains '/' = true := by
        simpa using List.elem_eq_true_of_mem hm
      rw [this] at h1
      cases h1
    · intro hm
      have : (rest.map Prod.fst).contains k = true := by
        simpa using List.elem_eq_true_of_mem hm
      rw [this] at h2
      cases h2
    · intro c hc
      rw [hc] at h3
      exact h3
  · rintro ⟨h1, h2, h3, h4⟩
    refine ⟨⟨⟨?_, ?_⟩, ?_⟩, h4⟩
    · rw [← Bool.not_eq_true]
      intro hc
      exact h1 (by simpa using hc)
    · rw [← Bool.not_eq_true]
      intro hc
      exact h2 (by simpa using hc)
    · cases kids with
      | none => rfl
      | some c => exact h3 c rfl

theorem wfTrees_nodup : ∀ {l : List (String × TreeNode)},
    wfTrees l = true → (l.map Prod.fst).Nodup := by
  intro l
  induction l with
  | nil => intro _; simp
  | cons hd tl ih =>
    intro h
    obtain ⟨k, node⟩ := hd
    obtain ⟨e, kids⟩ := node
    obtain ⟨_, h2, _, h4⟩ := wfTrees_cons_iff.mp h
    exact List.nodup_cons.mpr ⟨h2, ih h4⟩

theorem wfTrees_noslash : ∀ {l : List (String × TreeNode)},
    wfTrees l = true → ∀ k ∈ l.map Prod.fst, noSlash k := by
  intro l
  induction l with
  | nil => intro _ k hk; simp at hk
  | cons hd tl ih =>
    intro h k hk
    obtain ⟨k', node⟩ := hd
    obtain ⟨e, kids⟩ := node
    obtain ⟨h1, _, _, h4⟩ := wfTrees_cons_iff.mp h
    rcases List.mem_cons.mp hk with he | hm
    · rw [he]
      exact h1
    · exact ih h4 k hm

theorem wfTrees_kids : ∀ {l : List (String × TreeNode)} {k : String}
    {e : TreeEntry} {c : List (String × TreeNode)},
    wfTrees l = true → (k, TreeNode.mk e (some c)) ∈ l → wfTrees c = true := by
  intro l
  induction l with
  | nil => intro k e c _ hm; simp at hm
  | cons hd tl ih =>
    intro k e c h hm
    obtain ⟨k', node⟩ := hd
    obtain ⟨e', kids'⟩ := node
    obtain ⟨_, _, h3, h4⟩ := wfTrees_cons_iff.mp h
    rcases List.mem_cons.mp hm with he | hmm
    · have hk : kids' = some c := congrArg TreeNode.children (congrArg Prod.snd he.symm)
      exact h3 c hk
    · exact ih h4 hmm

theorem wfTrees_nil : wfTrees [] = true := by
  simp [wfTrees]

theorem wfTrees_oldChildren {oldTree : List (String × TreeNode)} (path : String)
    (h : wfTrees oldTree = true) : wfTrees (oldChildrenOf oldTree path) = true := by
  rw [oldChildrenOf]
  rcases hlk : List.lookup path oldTree with _ | o
  · exact wfTrees_nil
  · obtain ⟨e, kids⟩ := o
    cases kids with
    | none => exact wfTrees_nil
    | some c =>
      have hm := lookup_mem hlk
      show wfTrees c = true
      exact wfTrees_kids h hm

theorem getLeafPaths_length : ∀ (l : List (String × TreeNode)),
    (getLeafPaths l).length = numLeaves l := by
  intro l
  induction l using getLeafPaths.induct with
  | case1 => simp [getLeafPaths, numLeaves]
  | case2 path entry kids rest ih1 ih2 =>
    by_cases ht : entry.type = EntryType.tree
    · cases kids with
      | some c =>
        have ih1' : (getLeafPaths c).length = numLeaves c := ih1
        simp [getLeafPaths, numLeaves, ht, ih1', ih2]
      | none => simp [getLeafPaths, numLeaves, ht, ih2]
    · cases kids with
      | some c =>
        simp [getLeafPaths, numLeaves, ht, ih2]
        omega
      | none =>
        simp [getLeafPaths, numLeaves, ht, ih2]
        omega

theorem recDelContrib_shape {oldTree : List (String × TreeNode)} {q : String}
    {node : TreeNode} {x : String} (h : x ∈ recDelContrib oldTree (q, node)) :
    ∃ t, x = q ++ "/" ++ t ∧ node.entry.type = EntryType.tree ∧
      ∃ c, node.children = some c ∧
        t ∈ (diffTrees (oldChildrenOf oldTree q) c).deletions := by
  obtain ⟨entry, kids⟩ := node
  by_cases hch : shaChanged oldTree q entry
  case neg => simp [recDelContrib, hch] at h
  case pos =>
    cases kids with
    | none => simp [recDelContrib, hch] at h
    | some c =>
      by_cases ht : entry.type = EntryType.tree
      · simp only [recDelContrib, hch, ht] at h
        simp at h
        obtain ⟨t, hmem, hx⟩ := h
        exact ⟨t, hx.symm, ht, c, rfl, hmem⟩
      · simp [recDelContrib, hch, ht] at h

theorem addContrib_shape {oldTree : List (String × TreeNode)} {q : String}
    {node : TreeNode} {x : String × String} (h : x ∈ addContrib oldTree (q, node)) :
    (node.entry.type = EntryType.blob ∧ x = (q, node.entry.sha)) ∨
    (node.entry.type = EntryType.tree ∧ ∃ c a, node.children = some c ∧
      a ∈ (diffTrees (oldChildrenOf oldTree q) c).additions ∧
      x = (q ++ "/" ++ a.1, a.2)) := by
  obtain ⟨entry, kids⟩ := node
  by_cases hch : shaChanged oldTree q entry
  case neg => simp [addContrib, hch] at h
  case pos =>
    cases kids with
    | none =>
      by_cases hb : entry.type = EntryType.blob
      · simp [addContrib, hch, hb] at h
        left
        exact ⟨hb, by simp [h]⟩
      · simp [addContrib, hch, hb] at h
    | some c =>
      by_cases ht : entry.type = EntryType.tree
      · have hb : ¬ entry.type = EntryType.blob := by
          rw [ht]
          intro hcon
          cases hcon
        simp [addContrib, hch, ht, hb] at h
        obtain ⟨a1, a2, hmem, hx⟩ := h
        exact Or.inr ⟨ht, c, (a1, a2), rfl, hmem, hx.symm⟩
      · by_cases hb : entry.type = EntryType.blob
        · simp [addContrib, hch, ht, hb] at h
          left
          rw [TreeNode.entry_mk]
          exact ⟨hb, h⟩
        · simp [addContrib, hch, ht, hb] at h

theorem delContrib_shape {oldTree : List (String × TreeNode)} {d x : String}
    (h : x ∈ delContrib oldTree d) : x = d ∨ ∃ t, x = d ++ "/" ++ t := by
  rcases hlk : List.lookup d oldTree with _ | o
  · rw [delContrib, hlk] at h
    left
    simpa using h
  · obtain ⟨entry, kids⟩ := o
    cases kids with
    | none =>
      rw [delContrib, hlk] at h
      left
      simpa using h
    | some c =>
      by_cases ht : entry.type = EntryType.tree
      · rw [delContrib, hlk] at h
        simp [ht] at h
        obtain ⟨t, _, hx⟩ := h
        exact Or.inr ⟨t, hx.symm⟩
      · rw [delContrib, hlk] at h
        simp [ht] at h
        left
        exact h

theorem delContrib_tree {oldTree : List (String × TreeNode)} {d : String}
    {entry : TreeEntry} {c : List (String × TreeNode)}
    (hlk : List.lookup d oldTree = some (TreeNode.mk entry (some c)))
    (ht : entry.type = EntryType.tree) :
    delContrib oldTree d = (getLeafPaths c).map (fun path => d ++ "/" ++ path) := by
  rw [delContrib, hlk]
  simp [ht]

theorem filter_flatMap {α β : Type} (p : β → Bool) (f : α → List β) :
    ∀ l : List α, (l.flatMap f).filter p = l.flatMap (fun a => (f a).filter p) := by
  intro l
  induction l with
  | nil => simp
  | cons hd tl ih => simp [List.filter_append, ih]

theorem flatMap_eq_single {g : String → List String} :
    ∀ {L : List String} {d : String}, d ∈ L → L.Nodup →
      (∀ d' ∈ L, d' ≠ d → g d' = []) → L.flatMap g = g d := by
  intro L
  induction L with
  | nil => intro d h; simp at h
  | cons hd tl ih =>
    intro d hm hnd hz
    rcases List.mem_cons.mp hm with he | ht
    · have hrest : tl.flatMap g = [] := by
        rw [List.flatMap_eq_nil_iff]
        intro d' hd'
        have hne : d' ≠ d := by
          intro hc
          apply (List.nodup_cons.mp hnd).1
          rw [← he, ← hc]
          exact hd'
        exact hz d' (List.mem_cons_of_mem _ hd') hne
      rw [List.flatMap_cons, hrest, List.append_nil, ← he]
    · have hhd : g hd = [] := by
        apply hz hd (List.mem_cons_self _ _)
        intro hc
        exact (List.nodup_cons.mp hnd).1 (hc ▸ ht)
      rw [List.flatMap_cons, hhd, List.nil_append]
      exact ih ht (List.nodup_cons.mp hnd).2
        (fun d' hd' hne => hz d' (List.mem_cons_of_mem _ hd') hne)

theorem diffTrees_additions_spec (oldTree newTree : List (String × TreeNode)) :
    (diffTrees oldTree newTree).additions = newTree.flatMap (addContrib oldTree) := by
  rw [diffTrees_spec]

theorem diffTrees_deletions_spec (oldTree newTree : List (String × TreeNode)) :
    (diffTrees oldTree newTree).deletions =
      newTree.flatMap (recDelContrib oldTree) ++
        (List.foldl List.erase (oldTree.map Prod.fst)
          (newTree.map Prod.fst)).flatMap (delContrib oldTree) := by
  rw [diffTrees_spec]

theorem diffTrees_nil_deletions :
    ∀ (newTree : List (String × TreeNode)), (diffTrees [] newTree).deletions = [] := by
  suffices h : ∀ (n : Nat) (newTree : List (String × TreeNode)), sizeOf newTree ≤ n →
      (diffTrees [] newTree).deletions = [] by
    intro newTree
    exact h (sizeOf newTree) newTree (Nat.le_refl _)
  intro n
  induction n with
  | zero =>
    intro newTree hsz
    cases newTree with
    | nil => simp at hsz
    | cons hd tl =>
      simp only [List.cons.sizeOf_spec] at hsz
      omega
  | succ n ih =>
    intro newTree hsz
    rw [diffTrees_deletions_spec]
    have h1 : newTree.flatMap (recDelContrib []) = [] := by
      rw [List.flatMap_eq_nil_iff]
      intro x hx
      obtain ⟨q, node⟩ := x
      obtain ⟨entry, kids⟩ := node
      cases kids with
      | none => simp [recDelContrib]
      | some c =>
        by_cases ht : entry.type = EntryType.tree
        · have hszc : sizeOf c ≤ n := by
            have h1 := sizeOf_lt_of_mem_assoc hx
            have h2 := sizeOf_children_lt entry c
            omega
          simp [recDelContrib, ht, shaChanged, oldChildrenOf, ih c hszc]
        · simp [recDelContrib, ht]
    rw [h1, List.nil_append, List.map_nil, foldl_erase_nil]
    rfl

/-- Deletions of a diff never lie at or beneath a path that is a key of
`newTree`, provided the new entry at that key is not a tree (no recursion
happens there) or recurses against an empty old subtree (whose recursive
diff has no deletions). -/
theorem no_deletion_under_new_key
    (oldTree newTree : List (String × TreeNode))
    (hold : wfTrees oldTree = true) (hnew : wfTrees newTree = true)
    (p : String) (e : TreeEntry) (kids : Option (List (String × TreeNode)))
    (hNew : (p, TreeNode.mk e kids) ∈ newTree)
    (hsafe : e.type ≠ EntryType.tree ∨ oldChildrenOf oldTree p = []) :
    ∀ s ∈ (diffTrees oldTree newTree).deletions, ¬ pathUnder p s := by
  have hOldNodup := wfTrees_nodup hold
  have hNewNodup := wfTrees_nodup hnew
  have hpkey : p ∈ newTree.map Prod.fst := List.mem_map_of_mem Prod.fst hNew
  have hpNS : noSlash p := wfTrees_noslash hnew p hpkey
  intro s hs hps
  rw [diffTrees_deletions_spec] at hs
  rcases List.mem_append.mp hs with hA | hB
  · obtain ⟨⟨q', node'⟩, hq'mem, hx⟩ := List.mem_flatMap.mp hA
    obtain ⟨t', hst', htt', c', hkids', htdel'⟩ := recDelContrib_shape hx
    have hq'NS : noSlash q' :=
      wfTrees_noslash hnew q' (List.mem_map_of_mem Prod.fst hq'mem)
    have hpq' : p = q' := under_seg_eq hpNS hq'NS t' (hst' ▸ hps)
    rw [← hpq'] at hq'mem
    have hnodes : TreeNode.mk e kids = node' :=
      assoc_value_eq_of_nodup hNewNodup hNew hq'mem
    rcases hsafe with h1 | h2
    · rw [← hnodes] at htt'
      exact h1 (by simpa using htt')
    · rw [← hpq', h2, diffTrees_nil_deletions] at htdel'
      simp at htdel'
  · obtain ⟨d', hd'mem, hx⟩ := List.mem_flatMap.mp hB
    rw [foldl_erase_eq_filter _ _ hOldNodup, List.mem_filter] at hd'mem
    have hd'new : d' ∉ newTree.map Prod.fst := by simpa using hd'mem.2
    have hd'NS : noSlash d' := wfTrees_noslash hold d' hd'mem.1
    rcases delContrib_shape hx with h1 | ⟨t, ht⟩
    · rw [h1] at hps
      have hne : d' ≠ p := by
        intro hc
        exact hd'new (hc ▸ hpkey)
      exact not_under_of_noslash_ne hpNS hd'NS hne hps
    · rw [ht] at hps
      have hdq : p = d' := under_seg_eq hpNS hd'NS t hps
      exact hd'new (hdq ▸ hpkey)

theorem additions_deletions_disjoint_aux :
    ∀ (n : Nat) (oldTree newTree : List (String × TreeNode)), sizeOf newTree ≤ n →
      wfTrees oldTree = true → wfTrees newTree = true →
      ∀ p sh, (p, sh) ∈ (diffTrees oldTree newTree).additions →
        p ∉ (diffTrees oldTree newTree).deletions := by
  intro n
  induction n with
  | zero =>
    intro oldTree newTree hsz
    cases newTree with
    | nil => simp at hsz
    | cons hd tl =>
      simp only [List.cons.sizeOf_spec] at hsz
      omega
  | succ n ih =>
    intro oldTree newTree hsz hold hnew p sh hadd hdel
    have hOldNodup := wfTrees_nodup hold
    have hNewNodup := wfTrees_nodup hnew
    rw [diffTrees_additions_spec] at hadd
    rw [diffTrees_deletions_spec] at hdel
    obtain ⟨⟨q, node⟩, hqmem, hqc⟩ := List.mem_flatMap.mp hadd
    obtain ⟨e0, k0⟩ := node
    have hqkey : q ∈ newTree.map Prod.fst := List.mem_map_of_mem Prod.fst hqmem
    have hqNS : noSlash q := wfTrees_noslash hnew q hqkey
    rcases addContrib_shape hqc with ⟨_, hpq⟩ | ⟨htt, c, a, hkids, hamem, hpa⟩
    · -- the addition is a blob at key q, so p = q, a single segment
      have hpq1 : p = q := congrArg Prod.fst hpq
      have hpNS : noSlash p := by
        rw [hpq1]
        exact hqNS
      rcases List.mem_append.mp hdel with hA | hB
      · obtain ⟨⟨q', node'⟩, _, hx⟩ := List.mem_flatMap.mp hA
        obtain ⟨t', hpt', _, _⟩ := recDelContrib_shape hx
        exact noSlash_ne_seg hpNS q' t' hpt'
      · obtain ⟨d', hd'mem, hx⟩ := List.mem_flatMap.mp hB
        rw [foldl_erase_eq_filter _ _ hOldNodup, List.mem_filter] at hd'mem
        have hd'new : d' ∉ newTree.map Prod.fst := by simpa using hd'mem.2
        rcases delContrib_shape hx with h1 | ⟨t, ht⟩
        · rw [hpq1] at h1
          exact hd'new (h1 ▸ hqkey)
        · exact noSlash_ne_seg hpNS d' t ht
    · -- the addition comes from recursion at tree key q: p = q/…
      have hkids' : k0 = some c := by simpa using hkids
      subst hkids'
      have hp1 : p = q ++ "/" ++ a.1 := congrArg Prod.fst hpa
      have hwfc : wfTrees c = true := wfTrees_kids hnew hqmem
      have hwfold : wfTrees (oldChildrenOf oldTree q) = true :=
        wfTrees_oldChildren q hold
      have hszc : sizeOf c ≤ n := by
        have h1 := sizeOf_lt_of_mem_assoc hqmem
        have h2 := sizeOf_children_lt e0 c
        omega
      have hnotdel :=
        ih (oldChildrenOf oldTree q) c hszc hwfold hwfc a.1 a.2 hamem
      rcases List.mem_append.mp hdel with hA | hB
      · obtain ⟨⟨q', node'⟩, hq'mem, hx⟩ := List.mem_flatMap.mp hA
        obtain ⟨t', hpt', htt', c', hkids'', htdel'⟩ := recDelContrib_shape hx
        have hq'NS : noSlash q' :=
          wfTrees_noslash hnew q' (List.mem_map_of_mem Prod.fst hq'mem)
        obtain ⟨hqq', hat'⟩ := seg_inj hqNS hq'NS (by rw [← hp1]; exact hpt')
        rw [← hqq'] at hq'mem
        obtain ⟨e1, k1⟩ := node'
        have hnodes : TreeNode.mk e0 (some c) = TreeNode.mk e1 k1 :=
          assoc_value_eq_of_nodup hNewNodup hqmem hq'mem
        have hk1 : k1 = some c := (congrArg TreeNode.children hnodes).symm
        have hc' : c' = c := by
          have h2 : k1 = some c' := by simpa using hkids''
          rw [hk1] at h2
          exact (Option.some.injEq .. ▸ h2).symm
        rw [← hqq', hc', ← hat'] at htdel'
        exact hnotdel htdel'
      · obtain ⟨d', hd'mem, hx⟩ := List.mem_flatMap.mp hB
        rw [foldl_erase_eq_filter _ _ hOldNodup, List.mem_filter] at hd'mem
        have hd'new : d' ∉ newTree.map Prod.fst := by simpa using hd'mem.2
        have hd'NS : noSlash d' := wfTrees_noslash hold d' hd'mem.1
        rcases delContrib_shape hx with h1 | ⟨t, ht⟩
        · rw [h1] at hp1
          exact noSlash_ne_seg hd'NS q a.1 hp1
        · have hdq : d' = q := (seg_inj hd'NS hqNS (by rw [← ht]; exact hp1)).1
          exact hd'new (hdq ▸ hqkey)

/-- C3: for every pair of trees and every path `d` present in `oldTree`
(as a tree with children `c`) but absent from `newTree`, the deletions of
`diffTrees oldTree newTree` that concern `d`'s subtree are exactly one
deletion per leaf path beneath `d`, i.e. `numLeaves c` of them, regardless
of nesting depth.  Key uniqueness and single-segment keys are the
JavaScript `Map` invariants of the source trees. -/
theorem c3_directory_delete_one_deletion_per_leaf
    (oldTree newTree : List (String × TreeNode)) (d : String) (entry : TreeEntry)
    (c : List (String × TreeNode))
    (hOldNodup : (oldTree.map Prod.fst).Nodup)
    (hOldNS : ∀ k ∈ oldTree.map Prod.fst, noSlash k)
    (hNewNS : ∀ k ∈ newTree.map Prod.fst, noSlash k)
    (hMem : (d, TreeNode.mk entry (some c)) ∈ oldTree)
    (hTree : entry.type = EntryType.tree)
    (hGone : d ∉ newTree.map Prod.fst) :
    (diffTrees oldTree newTree).deletions.filter (pathUnderB d)
      = (getLeafPaths c).map (fun p => d ++ "/" ++ p) ∧
    (getLeafPaths c).length = numLeaves c := by
  refine ⟨?_, getLeafPaths_length c⟩
  have hdNS : noSlash d := hOldNS d (List.mem_map_of_mem Prod.fst hMem)
  rw [diffTrees_spec]
  show ((newTree.flatMap (recDelContrib oldTree) ++ _).filter (pathUnderB d)) = _
  rw [List.filter_append]
  have hrec : (newTree.flatMap (recDelContrib oldTree)).filter (pathUnderB d) = [] := by
    rw [List.filter_eq_nil_iff]
    intro x hx hpx
    obtain ⟨⟨q, node⟩, hqmem, hxcontrib⟩ := List.mem_flatMap.mp hx
    obtain ⟨t, hxt, _, _⟩ := recDelContrib_shape hxcontrib
    have hqNS : noSlash q := hNewNS q (List.mem_map_of_mem Prod.fst hqmem)
    have hdq : d = q := under_seg_eq hdNS hqNS t (hxt ▸ pathUnderB_iff.mp hpx)
    exact hGone (hdq ▸ List.mem_map_of_mem Prod.fst hqmem)
  rw [hrec, List.nil_append, foldl_erase_eq_filter _ _ hOldNodup, filter_flatMap]
  have hd_in : d ∈ (oldTree.map Prod.fst).filter
      (fun x => decide (x ∉ newTree.map Prod.fst)) := by
    rw [List.mem_filter]
    exact ⟨List.mem_map_of_mem Prod.fst hMem, by simpa using hGone⟩
  have hnd2 : ((oldTree.map Prod.fst).filter
      (fun x => decide (x ∉ newTree.map Prod.fst))).Nodup := hOldNodup.filter _
  have hzero : ∀ d' ∈ (oldTree.map Prod.fst).filter
      (fun x => decide (x ∉ newTree.map Prod.fst)), d' ≠ d →
      (delContrib oldTree d').filter (pathUnderB d) = [] := by
    intro d' hd' hne
    rw [List.mem_filter] at hd'
    rw [List.filter_eq_nil_iff]
    intro x hxd hpx
    have hd'NS : noSlash d' := hOldNS d' hd'.1
    rcases delContrib_shape hxd with hx1 | ⟨t, hxt⟩
    · subst hx1
      exact not_under_of_noslash_ne hdNS hd'NS hne (pathUnderB_iff.mp hpx)
    · have : d = d' := under_seg_eq hdNS hd'NS t (hxt ▸ pathUnderB_iff.mp hpx)
      exact hne this.symm
  rw [flatMap_eq_single hd_in hnd2 hzero]
  have hlk : List.lookup d oldTree = some (TreeNode.mk entry (some c)) :=
    lookup_of_nodup_mem hOldNodup hMem
  rw [delContrib_tree hlk hTree]
  apply List.filter_eq_self.mpr
  intro x hxm
  obtain ⟨t, _, hxt⟩ := List.mem_map.mp hxm
  rw [← hxt]
  exact pathUnderB_iff.mpr (under_self_seg d t)

/-- Witness for C3: deleting directory `dir` containing three leaves in
two nested subdirectories yields exactly those three deletions. -/
theorem c3_directory_delete_one_deletion_per_leaf_witness :
    (diffTrees
        [("dir", TreeNode.mk ⟨"040000", "dir", "T0", EntryType.tree⟩
          (some [("s1", TreeNode.mk ⟨"040000", "dir/s1", "T1", EntryType.tree⟩
                   (some [("f1", TreeNode.mk ⟨"100644", "dir/s1/f1", "b1", EntryType.blob⟩ none),
                          ("f2", TreeNode.mk ⟨"100644", "dir/s1/f2", "b2", EntryType.blob⟩ none)])),
                 ("f3", TreeNode.mk ⟨"100644", "dir/f3", "b3", EntryType.blob⟩ none)]))]
        []).deletions.filter (pathUnderB "dir")
      = ["dir/s1/f1", "dir/s1/f2", "dir/f3"] ∧
    (getLeafPaths
        [("s1", TreeNode.mk ⟨"040000", "dir/s1", "T1", EntryType.tree⟩
            (some [("f1", TreeNode.mk ⟨"100644", "dir/s1/f1", "b1", EntryType.blob⟩ none),
                   ("f2", TreeNode.mk ⟨"100644", "dir/s1/f2", "b2", EntryType.blob⟩ none)])),
         ("f3", TreeNode.mk ⟨"100644", "dir/f3", "b3", EntryType.blob⟩ none)]).length = 3 := by
  have h := c3_directory_delete_one_deletion_per_leaf
    [("dir", TreeNode.mk ⟨"040000", "dir", "T0", EntryType.tree⟩
      (some [("s1", TreeNode.mk ⟨"040000", "dir/s1", "T1", EntryType.tree⟩
               (some [("f1", TreeNode.mk ⟨"100644", "dir/s1/f1", "b1", EntryType.blob⟩ none),
                      ("f2", TreeNode.mk ⟨"100644", "dir/s1/f2", "b2", EntryType.blob⟩ none)])),
             ("f3", TreeNode.mk ⟨"100644", "dir/f3", "b3", EntryType.blob⟩ none)]))]
    [] "dir" ⟨"040000", "dir", "T0", EntryType.tree⟩
    [("s1", TreeNode.mk ⟨"040000", "dir/s1", "T1", EntryType.tree⟩
        (some [("f1", TreeNode.mk ⟨"100644", "dir/s1/f1", "b1", EntryType.blob⟩ none),
               ("f2", TreeNode.mk ⟨"100644", "dir/s1/f2", "b2", EntryType.blob⟩ none)])),
     ("f3", TreeNode.mk ⟨"100644", "dir/f3", "b3", EntryType.blob⟩ none)]
    (by simp) (by intro k hk; simp at hk; rw [hk]; decide)
    (by intro k hk; simp at hk) (by simp) rfl (by simp)
  refine ⟨?_, ?_⟩
  · rw [h.1]
    simp [getLeafPaths]
  · rw [h.2]
    simp [numLeaves]

/-- C4: for every tree `T` (a JavaScript `Map`, so with unique keys),
`diffTrees T T` returns empty additions and empty deletions: every path is
present in both trees with an equal sha and is skipped without recursion
and without producing output. -/
theorem c4_diff_reflexivity (t : List (String × TreeNode))
    (hnd : (t.map Prod.fst).Nodup) : diffTrees t t = ⟨[], []⟩ :=
  diffTrees_refl_aux t hnd

/-- Witness for C4: a two-level concrete tree diffed against itself. -/
theorem c4_diff_reflexivity_witness :
    diffTrees
      [("a", TreeNode.mk ⟨"100644", "a", "s1", EntryType.blob⟩ none),
       ("d", TreeNode.mk ⟨"040000", "d", "s2", EntryType.tree⟩
         (some [("b", TreeNode.mk ⟨"100644", "d/b", "s3", EntryType.blob⟩ none)]))]
      [("a", TreeNode.mk ⟨"100644", "a", "s1", EntryType.blob⟩ none),
       ("d", TreeNode.mk ⟨"040000", "d", "s2", EntryType.tree⟩
         (some [("b", TreeNode.mk ⟨"100644", "d/b", "s3", EntryType.blob⟩ none)]))]
      = ⟨[], []⟩ :=
  c4_diff_reflexivity _ (by simp)

theorem takeWhile_noslash : ∀ (l : List Char), '/' ∉ l →
    l.takeWhile (fun c => c != '/') = l := by
  intro l
  induction l with
  | nil => intro _; rfl
  | cons c t ih =>
    intro h
    have hc : c ≠ '/' := fun hcc => h (hcc ▸ List.mem_cons_self c t)
    have hb : (c != '/') = true := bne_iff_ne.mpr hc
    rw [List.takeWhile_cons, hb]
    simp [ih (fun hm => h (List.mem_cons_of_mem c hm))]

theorem stripToLastSlash_noslash {k : String} (h : noSlash k) :
    stripToLastSlash k = k := by
  rw [stripToLastSlash]
  have hrev : '/' ∉ k.data.reverse := by
    intro hm
    exact h (List.mem_reverse.mp hm)
  rw [takeWhile_noslash _ hrev, List.reverse_reverse]

theorem lookup_isSome_of_mem {β : Type} {k : String} {v : β} :
    ∀ {l : List (String × β)}, (k, v) ∈ l → ∃ v', List.lookup k l = some v' := by
  intro l
  induction l with
  | nil => intro h; simp at h
  | cons hd tl ih =>
    intro h
    obtain ⟨k', v'⟩ := hd
    rcases hbeq : k == k' with _ | _
    · rcases List.mem_cons.mp h with h1 | h2
      · have : k = k' := congrArg Prod.fst h1
        rw [this] at hbeq
        simp at hbeq
      · obtain ⟨v'', hv''⟩ := ih h2
        refine ⟨v'', ?_⟩
        rw [List.lookup_cons, hbeq]
        exact hv''
    · refine ⟨v', ?_⟩
      rw [List.lookup_cons, hbeq]

theorem consistent_mem : ∀ {l : List (String × List StoredTreeEntry)}
    {k : String} {v v' : List StoredTreeEntry},
    consistentList l = true → (k, v) ∈ l → (k, v') ∈ l → v = v' := by
  intro l
  induction l with
  | nil => intro k v v' _ h; simp at h
  | cons hd tl ih =>
    intro k v v' hc h1 h2
    obtain ⟨k0, v0⟩ := hd
    rw [consistentList, Bool.and_eq_true] at hc
    have hall := hc.1
    rcases List.mem_cons.mp h1 with he1 | hm1 <;>
      rcases List.mem_cons.mp h2 with he2 | hm2
    · have hv : v = v0 := congrArg Prod.snd he1
      have hv' : v' = v0 := congrArg Prod.snd he2
      rw [hv, hv']
    · have hk : k = k0 := congrArg Prod.fst he1
      have hv : v = v0 := congrArg Prod.snd he1
      have := List.all_eq_true.mp hall (k, v') hm2
      simp only [Bool.or_eq_true, bne_iff_ne, ne_eq, decide_eq_true_eq] at this
      rcases this with hne | heq
      · exact absurd hk hne
      · rw [hv, heq]
    · have hk : k = k0 := congrArg Prod.fst he2
      have hv' : v' = v0 := congrArg Prod.snd he2
      have := List.all_eq_true.mp hall (k, v) hm1
      simp only [Bool.or_eq_true, bne_iff_ne, ne_eq, decide_eq_true_eq] at this
      rcases this with hne | heq
      · exact absurd hk hne
      · rw [hv', heq]
    · exact ih hc.2 hm1 hm2

theorem mapSet_append {acc : List (String × TreeNode)} {k : String} {v : TreeNode} :
    k ∉ acc.map Prod.fst → mapSet acc k v = acc ++ [(k, v)] := by
  induction acc with
  | nil => intro _; rfl
  | cons hd tl ih =>
    intro h
    obtain ⟨k', v'⟩ := hd
    have hne : k' ≠ k := by
      intro hc
      apply h
      rw [hc]
      exact List.mem_cons_self _ _
    rw [mapSet, if_neg hne, ih (fun hm => h (List.mem_cons_of_mem _ hm))]
    rfl

theorem collectLoop_spec : ∀ (n : Nat) (children : List (String × TreeNode))
    (acc : List (String × List StoredTreeEntry)), sizeOf children ≤ n →
    collectLoop children acc = (serializeEntries children, acc ++ childTrees children) := by
  intro n
  induction n with
  | zero =>
    intro children acc hsz
    cases children with
    | nil => simp at hsz
    | cons hd tl =>
      simp only [List.cons.sizeOf_spec] at hsz
      omega
  | succ n ih =>
    intro children acc hsz
    cases children with
    | nil => simp [collectLoop, serializeEntries, childTrees]
    | cons hd tl =>
      obtain ⟨path, node⟩ := hd
      obtain ⟨entry, kids⟩ := node
      have hszt : sizeOf tl ≤ n := by
        simp only [List.cons.sizeOf_spec] at hsz
        omega
      cases kids with
      | none =>
        simp [collectLoop, ih tl _ hszt, serializeEntries, childTrees]
      | some c =>
        have hszc : sizeOf c ≤ n := by
          simp only [List.cons.sizeOf_spec, Prod.mk.sizeOf_spec,
            TreeNode.mk.sizeOf_spec, Option.some.sizeOf_spec] at hsz
          omega
        simp [collectLoop, collectTrees, ih c _ hszc, ih tl _ hszt,
          serializeEntries, childTrees]

theorem collectTrees_spec (sha : String) (children : List (String × TreeNode))
    (acc : List (String × List StoredTreeEntry)) :
    collectTrees sha children acc
      = acc ++ childTrees children ++ [(sha, serializeEntries children)] := by
  rw [collectTrees, collectLoop_spec (sizeOf children) children acc (Nat.le_refl _)]

theorem childrenWf_destruct {parentPath k : String} {e : TreeEntry}
    {kids : Option (List (String × TreeNode))} {rest : List (String × TreeNode)}
    (h : childrenWf parentPath ((k, TreeNode.mk e kids) :: rest) = true) :
    noSlash k ∧ k ∉ rest.map Prod.fst ∧ e.path = joinPath parentPath k ∧
    (∀ c, kids = some c →
      e.type = EntryType.tree ∧ e.mode = "040000" ∧
        childrenWf (joinPath parentPath k) c = true) ∧
    (kids = none →
      e.type ≠ EntryType.tree ∧ e.mode ≠ "040000" ∧
        (e.type = EntryType.symlink ↔ e.mode = "120000")) ∧
    childrenWf parentPath rest = true := by
  rw [childrenWf.eq_def] at h
  simp only [] at h
  cases kids with
  | some c =>
    simp only [Bool.and_eq_true, Bool.not_eq_true', beq_iff_eq] at h
    obtain ⟨⟨⟨⟨h1, h2⟩, h3⟩, ⟨⟨h4a, h4b⟩, h4c⟩⟩, h6⟩ := h
    refine ⟨?_, ?_, h3, ?_, ?_, h6⟩
    · intro hm
      have hcn : k.data.contains '/' = true := by
        simpa using List.elem_eq_true_of_mem hm
      rw [hcn] at h1
      cases h1
    · intro hm
      have hcn : (rest.map Prod.fst).contains k = true := by
        simpa using List.elem_eq_true_of_mem hm
      rw [hcn] at h2
      cases h2
    · intro c' hc'
      have hcc : c' = c := Option.some.injEq .. ▸ hc'.symm
      rw [hcc]
      exact ⟨h4a, h4b, h4c⟩
    · intro hc
      cases hc
  | none =>
    simp only [Bool.and_eq_true, Bool.not_eq_true', beq_iff_eq, bne_iff_ne] at h
    obtain ⟨⟨⟨⟨h1, h2⟩, h3⟩, ⟨⟨h5a, h5b⟩, h5c⟩⟩, h6⟩ := h
    refine ⟨?_, ?_, h3, ?_, ?_, h6⟩
    · intro hm
      have hcn : k.data.contains '/' = true := by
        simpa using List.elem_eq_true_of_mem hm
      rw [hcn] at h1
      cases h1
    · intro hm
      have hcn : (rest.map Prod.fst).contains k = true := by
        simpa using List.elem_eq_true_of_mem hm
      rw [hcn] at h2
      cases h2
    · intro c' hc'
      cases hc'
    · intro _
      refine ⟨h5a, h5b, ?_⟩
      constructor
      · intro ht
        have hb : (e.type == EntryType.symlink) = true := beq_iff_eq.mpr ht
        rw [h5c] at hb
        exact beq_iff_eq.mp hb
      · intro hm
        have hb : (e.mode == "120000") = true := beq_iff_eq.mpr hm
        rw [← h5c] at hb
        exact beq_iff_eq.mp hb

theorem childrenWf_mem {parentPath : String} :
    ∀ {l : List (String × TreeNode)}, childrenWf parentPath l = true →
      ∀ {k : String} {e : TreeEntry} {c : List (String × TreeNode)},
        (k, TreeNode.mk e (some c)) ∈ l →
        childrenWf (joinPath parentPath k) c = true := by
  intro l
  induction l with
  | nil =>
    intro _ k e c hm
    simp at hm
  | cons hd tl ih =>
    intro h k e c hm
    obtain ⟨k0, node0⟩ := hd
    obtain ⟨e0, kids0⟩ := node0
    obtain ⟨_, _, _, h4, _, h6⟩ := childrenWf_destruct h
    rcases List.mem_cons.mp hm with he | hmm
    · have hk : k0 = k := (congrArg Prod.fst he).symm
      have hnode : TreeNode.mk e (some c) = TreeNode.mk e0 kids0 := congrArg Prod.snd he
      have hkid : kids0 = some c := (congrArg TreeNode.children hnode).symm
      subst hk
      exact (h4 c hkid).2.2
    · exact ih h6 hmm

theorem treeListDepth_cons_some (k : String) (e : TreeEntry)
    (c : List (String × TreeNode)) (rest : List (String × TreeNode)) :
    treeListDepth ((k, TreeNode.mk e (some c)) :: rest)
      = max (treeListDepth c + 1) (treeListDepth rest) := by
  rw [treeListDepth.eq_def]

theorem treeListDepth_cons_none (k : String) (e : TreeEntry)
    (rest : List (String × TreeNode)) :
    treeListDepth ((k, TreeNode.mk e none) :: rest)
      = max 0 (treeListDepth rest) := by
  rw [treeListDepth.eq_def]

theorem treeListDepth_child : ∀ {children : List (String × TreeNode)} {k : String}
    {e : TreeEntry} {c : List (String × TreeNode)},
    (k, TreeNode.mk e (some c)) ∈ children →
    treeListDepth c < treeListDepth children := by
  intro children
  induction children with
  | nil =>
    intro k e c h
    simp at h
  | cons hd tl ih =>
    intro k e c h
    obtain ⟨k0, node0⟩ := hd
    obtain ⟨e0, kids0⟩ := node0
    rcases List.mem_cons.mp h with he | hm
    · have hnode : TreeNode.mk e (some c) = TreeNode.mk e0 kids0 := congrArg Prod.snd he
      have hkid : kids0 = some c := (congrArg TreeNode.children hnode).symm
      subst hkid
      rw [treeListDepth_cons_some]
      exact Nat.lt_of_lt_of_le (Nat.lt_succ_self _) (Nat.le_max_left _ _)
    · have hlt := ih hm
      cases kids0 with
      | some c0 =>
        rw [treeListDepth_cons_some]
        exact Nat.lt_of_lt_of_le hlt (Nat.le_max_right _ _)
      | none =>
        rw [treeListDepth_cons_none]
        exact Nat.lt_of_lt_of_le hlt (Nat.le_max_right _ _)

theorem treeStored_mono {trees trees' : List (String × List StoredTreeEntry)}
    (hsub : trees ⊆ trees') :
    ∀ {sha : String} {children : List (String × TreeNode)},
      TreeStored trees sha children → TreeStored trees' sha children := by
  intro sha children h
  induction h with
  | mk sha children hmem _ ih =>
    exact TreeStored.mk sha children (hsub hmem) (fun k e c hm => ih k e c hm)

theorem childTrees_sub : ∀ {children : List (String × TreeNode)} {k : String}
    {e : TreeEntry} {c : List (String × TreeNode)},
    (k, TreeNode.mk e (some c)) ∈ children →
    ∀ x ∈ childTrees c ++ [(e.sha, serializeEntries c)], x ∈ childTrees children := by
  intro children
  induction children with
  | nil =>
    intro k e c h
    simp at h
  | cons hd tl ih =>
    intro k e c h x hx
    obtain ⟨k0, node0⟩ := hd
    obtain ⟨e0, kids0⟩ := node0
    rcases List.mem_cons.mp h with he | hm
    · have hnode : TreeNode.mk e (some c) = TreeNode.mk e0 kids0 := congrArg Prod.snd he
      have hkid : kids0 = some c := (congrArg TreeNode.children hnode).symm
      have hes : e0 = e := (congrArg TreeNode.entry hnode).symm
      subst hkid
      subst hes
      rw [childTrees.eq_def]
      simp only []
      exact List.mem_append_left _ hx
    · have hx2 := ih hm x hx
      cases kids0 with
      | some c0 =>
        rw [childTrees.eq_def]
        simp only []
        exact List.mem_append_right _ hx2
      | none =>
        rw [childTrees.eq_def]
        simp only []
        exact List.mem_append_right _ hx2

theorem treeStored_collect : ∀ (n : Nat) (children : List (String × TreeNode))
    (sha : String), sizeOf children ≤ n →
    TreeStored (collectTrees sha children []) sha children := by
  intro n
  induction n with
  | zero =>
    intro children sha hsz
    cases children with
    | nil => simp at hsz
    | cons hd tl =>
      simp only [List.cons.sizeOf_spec] at hsz
      omega
  | succ n ih =>
    intro children sha hsz
    rw [collectTrees_spec]
    refine TreeStored.mk sha children ?_ ?_
    · simp
    · intro k e c hm
      have hszc : sizeOf c ≤ n := by
        have h1 := sizeOf_lt_of_mem_assoc hm
        have h2 := sizeOf_children_lt e c
        omega
      refine treeStored_mono ?_ (ih c e.sha hszc)
      intro x hx
      rw [collectTrees_spec] at hx
      simp only [List.nil_append] at hx
      have hx2 := childTrees_sub hm x hx
      simp only [List.nil_append, List.mem_append]
      exact Or.inl hx2

theorem constructChildren_roundtrip (f : Nat)
    (trees : List (String × List StoredTreeEntry)) (parentPath : String) :
    ∀ (suf : List (String × TreeNode)) (acc : List (String × TreeNode)),
      childrenWf parentPath suf = true →
      (∀ x ∈ suf, x.1 ∉ acc.map Prod.fst) →
      (∀ k e c, (k, TreeNode.mk e (some c)) ∈ suf →
        constructTreeFromStoredTrees f e.sha trees (joinPath parentPath k)
          = some (TreeNode.mk ⟨"040000", joinPath parentPath k, e.sha, EntryType.tree⟩
              (some c))) →
      constructChildren f (serializeEntries suf) trees parentPath acc
        = some (acc ++ suf) := by
  intro suf
  induction suf with
  | nil =>
    intro acc _ _ _
    simp [serializeEntries, constructChildren]
  | cons hd tl ih =>
    intro acc hwf hdisj hres
    obtain ⟨k, node⟩ := hd
    obtain ⟨e, kids⟩ := node
    obtain ⟨h1, h2, h3, h4, h5, h6⟩ := childrenWf_destruct hwf
    have hstrip : stripToLastSlash k = k := stripToLastSlash_noslash h1
    have hser : serializeEntries ((k, TreeNode.mk e kids) :: tl)
        = ⟨k, e.sha, e.mode⟩ :: serializeEntries tl := by
      simp [serializeEntries, hstrip]
    rw [hser]
    have hknotacc : k ∉ acc.map Prod.fst :=
      hdisj (k, TreeNode.mk e kids) (List.mem_cons_self _ _)
    have hdisj' : ∀ x ∈ tl, x.1 ∉ (acc ++ [(k, TreeNode.mk e kids)]).map Prod.fst := by
      intro x hx
      rw [List.map_append, List.mem_append]
      rintro (hacc | hk1)
      · exact hdisj x (List.mem_cons_of_mem _ hx) hacc
      · simp only [List.map_cons, List.map_nil, List.mem_singleton] at hk1
        exact h2 (hk1 ▸ List.mem_map_of_mem Prod.fst hx)
    have hres' : ∀ k' e' c', (k', TreeNode.mk e' (some c')) ∈ tl →
        constructTreeFromStoredTrees f e'.sha trees (joinPath parentPath k')
          = some (TreeNode.mk ⟨"040000", joinPath parentPath k', e'.sha, EntryType.tree⟩
              (some c')) :=
      fun k' e' c' hm' => hres k' e' c' (List.mem_cons_of_mem _ hm')
    cases kids with
    | some c =>
      obtain ⟨hte, hme, _⟩ := h4 c rfl
      have hcon := hres k e c (List.mem_cons_self _ _)
      have hnode : TreeNode.mk ⟨"040000", joinPath parentPath k, e.sha, EntryType.tree⟩
          (some c) = TreeNode.mk e (some c) := by
        cases e with
        | mk em ep es et =>
          have hme' : em = "040000" := hme
          have h3' : ep = joinPath parentPath k := h3
          have hte' : et = EntryType.tree := hte
          rw [hme', h3', hte']
      have hstep : constructChildren f
            ((⟨k, e.sha, e.mode⟩ : StoredTreeEntry) :: serializeEntries tl)
            trees parentPath acc
          = constructChildren f (serializeEntries tl) trees parentPath
              (mapSet acc k (TreeNode.mk e (some c))) := by
        simp [constructChildren, hme, hcon, hnode]
      rw [hstep, mapSet_append hknotacc, ih _ h6 hdisj' hres']
      simp [List.append_assoc]
    | none =>
      obtain ⟨hte, hme, hsym⟩ := h5 rfl
      have htype : (if e.mode = "120000" then EntryType.symlink else EntryType.blob)
          = e.type := by
        by_cases hm : e.mode = "120000"
        · rw [if_pos hm]
          exact (hsym.mpr hm).symm
        · rw [if_neg hm]
          have hnsym : e.type ≠ EntryType.symlink := fun hc => hm (hsym.mp hc)
          cases hEt : e.type with
          | blob => rfl
          | symlink => exact absurd hEt hnsym
          | tree => exact absurd hEt hte
      have hnode : TreeNode.mk
            ⟨e.mode, joinPath parentPath k, e.sha,
              if e.mode = "120000" then EntryType.symlink else EntryType.blob⟩ none
          = TreeNode.mk e none := by
        cases e with
        | mk em ep es et =>
          have h3' : ep = joinPath parentPath k := h3
          have htype' : (if em = "120000" then EntryType.symlink else EntryType.blob)
              = et := htype
          rw [h3', htype']
      have hstep : constructChildren f
            ((⟨k, e.sha, e.mode⟩ : StoredTreeEntry) :: serializeEntries tl)
            trees parentPath acc
          = constructChildren f (serializeEntries tl) trees parentPath
              (mapSet acc k (TreeNode.mk e none)) := by
        simp [constructChildren, hme, hnode]
      rw [hstep, mapSet_append hknotacc, ih _ h6 hdisj' hres']
      simp [List.append_assoc]

theorem roundtrip_aux : ∀ (n : Nat) (children : List (String × TreeNode)),
    sizeOf children ≤ n →
    ∀ (trees : List (String × List StoredTreeEntry)) (sha parentPath : String)
      (fuel : Nat),
      treeListDepth children < fuel →
      consistentList trees = true →
      TreeStored trees sha children →
      childrenWf parentPath children = true →
      constructTreeFromStoredTrees fuel sha trees parentPath
        = some (TreeNode.mk ⟨"040000", parentPath, sha, EntryType.tree⟩
            (some children)) := by
  intro n
  induction n with
  | zero =>
    intro children hsz
    cases children with
    | nil => simp at hsz
    | cons hd tl =>
      simp only [List.cons.sizeOf_spec] at hsz
      omega
  | succ n ih =>
    intro children hsz trees sha parentPath fuel hdepth hcons hstored hwf
    cases fuel with
    | zero => omega
    | succ f =>
      cases hstored with
      | mk _ _ hmem hkids =>
        obtain ⟨v', hlk⟩ := lookup_isSome_of_mem hmem
        have hveq : v' = serializeEntries children :=
          consistent_mem hcons (lookup_mem hlk) hmem
        subst hveq
        have hres : ∀ k e c, (k, TreeNode.mk e (some c)) ∈ children →
            constructTreeFromStoredTrees f e.sha trees (joinPath parentPath k)
              = some (TreeNode.mk
                  ⟨"040000", joinPath parentPath k, e.sha, EntryType.tree⟩ (some c)) := by
          intro k e c hm
          have hszc : sizeOf c ≤ n := by
            have hs1 := sizeOf_lt_of_mem_assoc hm
            have hs2 := sizeOf_children_lt e c
            omega
          have hdep : treeListDepth c < f :=
            Nat.lt_of_lt_of_le (treeListDepth_child hm) (Nat.lt_succ_iff.mp hdepth)
          exact ih c hszc trees e.sha (joinPath parentPath k) f hdep hcons
            (hkids k e c hm) (childrenWf_mem hwf hm)
        have hloop := constructChildren_roundtrip f trees parentPath children []
          hwf (by intro x _; simp) hres
        simp [constructTreeFromStoredTrees, hlk, hloop]

/-- C6: for every well-formed tree (children keyed by unique single path
segments, node paths and modes consistent with the hierarchy), provided
the flattening is sha-consistent (equal shas carry equal serialized
entries — the content-addressing invariant of the claim's "sha matching
its serialized children"), reconstructing from the root sha and the flat
mapping produced by `collectTrees` yields a tree structurally equal to
the original, using any recursion bound above the tree's depth. -/
theorem c6_flatten_buildTree_roundtrip (sha : String)
    (children : List (String × TreeNode))
    (hwf : childrenWf "" children = true)
    (hcons : consistentList (collectTrees sha children []) = true) :
    constructTreeFromStoredTrees (treeListDepth children + 1) sha
      (collectTrees sha children []) ""
      = some (TreeNode.mk ⟨"040000", "", sha, EntryType.tree⟩ (some children)) :=
  roundtrip_aux (sizeOf children) children (Nat.le_refl _)
    (collectTrees sha children []) sha "" (treeListDepth children + 1)
    (Nat.lt_succ_self _) hcons
    (treeStored_collect (sizeOf children) children sha (Nat.le_refl _)) hwf

/-- Witness for C6: a two-level tree (blob `a`, directory `d` containing
blob `d/b`) flattened and rebuilt from its root sha `R`. -/
theorem c6_flatten_buildTree_roundtrip_witness :
    constructTreeFromStoredTrees
      (treeListDepth
        [("a", TreeNode.mk ⟨"100644", "a", "B1", EntryType.blob⟩ none),
         ("d", TreeNode.mk ⟨"040000", "d", "T2", EntryType.tree⟩
           (some [("b", TreeNode.mk ⟨"100644", "d/b", "B2", EntryType.blob⟩ none)]))] + 1)
      "R"
      (collectTrees "R"
        [("a", TreeNode.mk ⟨"100644", "a", "B1", EntryType.blob⟩ none),
         ("d", TreeNode.mk ⟨"040000", "d", "T2", EntryType.tree⟩
           (some [("b", TreeNode.mk ⟨"100644", "d/b", "B2", EntryType.blob⟩ none)]))] [])
      ""
      = some (TreeNode.mk ⟨"040000", "", "R", EntryType.tree⟩
          (some [("a", TreeNode.mk ⟨"100644", "a", "B1", EntryType.blob⟩ none),
                 ("d", TreeNode.mk ⟨"040000", "d", "T2", EntryType.tree⟩
                   (some [("b", TreeNode.mk ⟨"100644", "d/b", "B2", EntryType.blob⟩
                     none)]))])) :=
  c6_flatten_buildTree_roundtrip "R" _
    (by simp [childrenWf, joinPath])
    (by rw [collectTrees_spec]
        simp [childTrees, serializeEntries, consistentList, stripToLastSlash])

theorem constructChildren_missing (f : Nat)
    (trees : List (String × List StoredTreeEntry)) :
    ∀ (entries : List StoredTreeEntry) (e : StoredTreeEntry), e ∈ entries →
      e.mode = "040000" →
      (∀ pp, constructTreeFromStoredTrees f e.sha trees pp = none) →
      ∀ (parentPath : String) (acc : List (String × TreeNode)),
        constructChildren f entries trees parentPath acc = none := by
  intro entries
  induction entries with
  | nil =>
    intro e he
    simp at he
  | cons hd tl ih =>
    intro e he hmode hnone parentPath acc
    rcases List.mem_cons.mp he with he1 | htl
    · have hm : hd.mode = "040000" := by
        rw [← he1]
        exact hmode
      have hn : constructTreeFromStoredTrees f hd.sha trees
          (joinPath parentPath hd.path) = none := by
        rw [← he1]
        exact hnone _
      simp [constructChildren, hm, hn]
    · by_cases hm : hd.mode = "040000"
      · rcases hc : constructTreeFromStoredTrees f hd.sha trees
            (joinPath parentPath hd.path) with _ | child
        · simp [constructChildren, hm, hc]
        · simp [constructChildren, hm, hc]
          exact ih e htl hmode hnone parentPath _
      · simp [constructChildren, hm]
        exact ih e htl hmode hnone parentPath _

/-- C7: for every root sha and sha → entries mapping, if the root sha or
any transitively referenced tree-mode entry's sha is absent from the
mapping, `constructTreeFromStoredTrees` returns `none` (never a partial or
empty tree), at every recursion-depth bound and parent path. -/
theorem c7_missing_ref_returns_none
    (trees : List (String × List StoredTreeEntry)) (sha : String)
    (h : MissingRef trees sha) :
    ∀ (fuel : Nat) (parentPath : String),
      constructTreeFromStoredTrees fuel sha trees parentPath = none := by
  induction h with
  | root sha hlk =>
    intro fuel parentPath
    cases fuel with
    | zero => simp [constructTreeFromStoredTrees]
    | succ f => simp [constructTreeFromStoredTrees, hlk]
  | child sha entries e hlk hmem hmode _ ihe =>
    intro fuel parentPath
    cases fuel with
    | zero => simp [constructTreeFromStoredTrees]
    | succ f =>
      have hcc := constructChildren_missing f trees entries e hmem hmode
        (fun pp => ihe f pp) parentPath []
      simp [constructTreeFromStoredTrees, hlk, hcc]

/-- Witness for C7: the mapping `{R → [{d, S, 040000}]}` lacks the tree
sha `S` referenced by `R`'s single entry, so reconstruction of `R`
returns `none`. -/
theorem c7_missing_ref_returns_none_witness :
    constructTreeFromStoredTrees 3 "R" [("R", [⟨"d", "S", "040000"⟩])] "" = none :=
  c7_missing_ref_returns_none _ _
    (MissingRef.child "R" [⟨"d", "S", "040000"⟩] ⟨"d", "S", "040000"⟩
      (by simp [List.lookup_cons]) (by simp) rfl
      (MissingRef.root "S" (by simp [List.lookup_cons])))
    3 ""

/-- C5: for every pair of trees (with the JavaScript `Map` invariants:
unique, single-segment keys at every level), no path occurs both as an
addition and as a deletion of the same `diffTrees` result. -/
theorem c5_additions_deletions_disjoint
    (oldTree newTree : List (String × TreeNode))
    (hold : wfTrees oldTree = true) (hnew : wfTrees newTree = true)
    (p sh : String) (hadd : (p, sh) ∈ (diffTrees oldTree newTree).additions) :
    p ∉ (diffTrees oldTree newTree).deletions :=
  additions_deletions_disjoint_aux (sizeOf newTree) oldTree newTree
    (Nat.le_refl _) hold hnew p sh hadd

/-- Witness for C5: a diff with both an addition (changed blob `a`, new
file `d/n`) and deletions (`d/x` removed inside `d`, `gone` removed);
the added path `a` is not among the deletions. -/
theorem c5_additions_deletions_disjoint_witness :
    "a" ∉ (diffTrees
      [("a", TreeNode.mk ⟨"100644", "a", "s1", EntryType.blob⟩ none),
       ("d", TreeNode.mk ⟨"040000", "d", "t1", EntryType.tree⟩
         (some [("x", TreeNode.mk ⟨"100644", "d/x", "s2", EntryType.blob⟩ none)])),
       ("gone", TreeNode.mk ⟨"100644", "gone", "s3", EntryType.blob⟩ none)]
      [("a", TreeNode.mk ⟨"100644", "a", "s4", EntryType.blob⟩ none),
       ("d", TreeNode.mk ⟨"040000", "d", "t2", EntryType.tree⟩
         (some [("n", TreeNode.mk ⟨"100644", "d/n", "s5", EntryType.blob⟩ none)]))]).deletions :=
  c5_additions_deletions_disjoint _ _
    (by simp [wfTrees]) (by simp [wfTrees]) "a" "s4"
    (by simp [diffTrees, diffLoop, shaChanged, oldChildrenOf, delContrib,
      getLeafPaths, List.lookup_cons])

/-- C2 counterexample: path `a` changes type (blob → tree) with differing
shas, yet `diffTrees` records no deletion at all — in particular the old
blob path `a` does not appear in the deletions, contradicting the claim
that the old entry's content is deleted. -/
theorem c2_type_change_counterexample :
    diffTrees c2Old c2New = ⟨[("a/b", "3")], []⟩ ∧
    "a" ∉ (diffTrees c2Old c2New).deletions := by
  have h : diffTrees c2Old c2New = ⟨[("a/b", "3")], []⟩ := by
    simp [c2Old, c2New, diffTrees, diffLoop, shaChanged, oldChildrenOf,
      delContrib, getLeafPaths, List.lookup_cons]
  refine ⟨h, ?_⟩
  rw [h]
  simp

/-- C2 (amended): for every pair of trees (JavaScript `Map` invariants)
and every path `p` present in both whose shas differ and whose type
changes, `diffTrees` produces only the additions for the new entry — for
blob → tree, the additions of diffing the new subtree against an empty
tree, prefixed with `p`; for tree → blob, a plain blob addition at `p` —
and records no deletion at or beneath `p`: the old entry's content is
never explicitly deleted, and the change is never an in-place update. -/
theorem c2_type_change_amended
    (oldTree newTree : List (String × TreeNode))
    (hold : wfTrees oldTree = true) (hnew : wfTrees newTree = true)
    (p : String) (e e' : TreeEntry) (kids kids' : Option (List (String × TreeNode)))
    (hNew : (p, TreeNode.mk e kids) ∈ newTree)
    (hOld : List.lookup p oldTree = some (TreeNode.mk e' kids'))
    (hsha : e'.sha ≠ e.sha) :
    (∀ c, e.type = EntryType.tree → kids = some c → kids' = none →
      (∃ pre post, (diffTrees oldTree newTree).additions
        = pre ++ (diffTrees [] c).additions.map (fun a => (p ++ "/" ++ a.1, a.2)) ++ post)
      ∧ ∀ s ∈ (diffTrees oldTree newTree).deletions, ¬ pathUnder p s)
    ∧ (e.type = EntryType.blob → e'.type = EntryType.tree →
      ((p, e.sha) ∈ (diffTrees oldTree newTree).additions)
      ∧ ∀ s ∈ (diffTrees oldTree newTree).deletions, ¬ pathUnder p s) := by
  have hch : shaChanged oldTree p e = true := by
    simp [shaChanged, hOld]
    exact fun hc => hsha hc
  constructor
  · intro c htype hkc hkid'
    subst hkc
    have hoc : oldChildrenOf oldTree p = [] := by
      simp [oldChildrenOf, hOld, hkid']
    constructor
    · obtain ⟨l1, l2, hsplit⟩ := List.append_of_mem hNew
      refine ⟨l1.flatMap (addContrib oldTree), l2.flatMap (addContrib oldTree), ?_⟩
      rw [diffTrees_additions_spec, hsplit, List.flatMap_append, List.flatMap_cons]
      have hb : ¬ e.type = EntryType.blob := by
        rw [htype]
        intro hcon
        cases hcon
      rw [show addContrib oldTree (p, TreeNode.mk e (some c))
            = (diffTrees [] c).additions.map (fun a => (p ++ "/" ++ a.1, a.2)) by
        simp [addContrib, hch, htype, hb, hoc]]
      rw [List.append_assoc]
    · exact no_deletion_under_new_key oldTree newTree hold hnew p e (some c) hNew
        (Or.inr hoc)
  · intro hblob htree'
    constructor
    · rw [diffTrees_additions_spec]
      rw [List.mem_flatMap]
      refine ⟨(p, TreeNode.mk e kids), hNew, ?_⟩
      cases kids with
      | none => simp [addContrib, hch, hblob]
      | some c =>
        have ht : ¬ e.type = EntryType.tree := by
          rw [hblob]
          intro hcon
          cases hcon
        simp [addContrib, hch, hblob, ht]
    · refine no_deletion_under_new_key oldTree newTree hold hnew p e kids hNew
        (Or.inl ?_)
      rw [hblob]
      intro hcon
      cases hcon

/-- Witness for C2 (amended), tree → blob direction: old tree has `d` as a
directory with leaf `d/x`, new tree has `d` as a blob; the diff contains
the blob addition at `d` and no deletion at or beneath `d`. -/
theorem c2_type_change_amended_witness :
    ("d", "9") ∈ (diffTrees
        [("d", TreeNode.mk ⟨"040000", "d", "t1", EntryType.tree⟩
          (some [("x", TreeNode.mk ⟨"100644", "d/x", "s1", EntryType.blob⟩ none)]))]
        [("d", TreeNode.mk ⟨"100644", "d", "9", EntryType.blob⟩ none)]).additions ∧
    ∀ s ∈ (diffTrees
        [("d", TreeNode.mk ⟨"040000", "d", "t1", EntryType.tree⟩
          (some [("x", TreeNode.mk ⟨"100644", "d/x", "s1", EntryType.blob⟩ none)]))]
        [("d", TreeNode.mk ⟨"100644", "d", "9", EntryType.blob⟩ none)]).deletions,
      ¬ pathUnder "d" s :=
  (c2_type_change_amended _ _
    (by simp [wfTrees]) (by simp [wfTrees])
    "d" ⟨"100644", "d", "9", EntryType.blob⟩ ⟨"040000", "d", "t1", EntryType.tree⟩
    none (some [("x", TreeNode.mk ⟨"100644", "d/x", "s1", EntryType.blob⟩ none)])
    (by simp) (by simp [List.lookup_cons]) (by decide)).2 rfl rfl

/-- Witness for C10: a state whose cache holds a tree for sha `R` while the
persistent store is already out of sync; the lookup after clearing still
reconstructs the cached tree. -/
theorem c10_clear_object_store_keeps_memory_cache_witness :
    (getTreeFromPersistedCache
        (clearObjectStore
          { treeStore := [("R", StoredValue.valid [⟨"x", "B", "100644"⟩])],
            blobStore := [("B", [7])],
            extraRootsRaw := none,
            cache := some [("R", [⟨"x", "B", "100644"⟩])] })
        2 "R").1
      = (getTreeFromPersistedCache
          { treeStore := [("R", StoredValue.valid [⟨"x", "B", "100644"⟩])],
            blobStore := [("B", [7])],
            extraRootsRaw := none,
            cache := some [("R", [⟨"x", "B", "100644"⟩])] }
          2 "R").1 :=
  (c10_clear_object_store_keeps_memory_cache _ [("R", [⟨"x", "B", "100644"⟩])] "R" 2
    rfl (by simp [List.lookup_cons])).2.2.2.2

end Keystatic
